import Mathlib

/-!
Verification of the smoothvoxels voxel-to-mesh geometry engine
(src/dist/smoothvoxels.js) against its natural-language specification.

The JavaScript source is shallowly embedded: numbers are modelled as
rationals (`ℚ`; all operations exercised here are field operations and
comparisons), JS `null`/`undefined` results as `Option`, and JS objects as
Lean structures.  `Number.EPSILON` is the rational `2 ^ (-52)`.
-/

namespace SmoothVoxels

/-- A 3D vector / point `{x, y, z}` with rational coordinates. -/
structure Vec3 where
  x : ℚ
  y : ℚ
  z : ℚ
deriving DecidableEq, Repr

/-- `Number.EPSILON` in JavaScript: 2⁻⁵². -/
def epsJS : ℚ := 1 / 2 ^ 52

/-- Componentwise subtraction (`v1.x - v0.x`, ...). -/
def Vec3.sub (a b : Vec3) : Vec3 := ⟨a.x - b.x, a.y - b.y, a.z - b.z⟩

/-- Dot product, as inlined in `_triangleDistance`. -/
def dot3 (a b : Vec3) : ℚ := a.x * b.x + a.y * b.y + a.z * b.z

/-- Cross product, as inlined in `_triangleDistance` (`h`, `q`). -/
def cross3 (a b : Vec3) : Vec3 :=
  ⟨a.y * b.z - a.z * b.y, a.z * b.x - a.x * b.z, a.x * b.y - a.y * b.x⟩

/-- A triangle: three vertices `v0 v1 v2` (nine consecutive floats in the
source's flat `triangles` array). -/
structure Tri where
  v0 : Vec3
  v1 : Vec3
  v2 : Vec3
deriving DecidableEq, Repr

/-- `edge1 = v1 - v0` in `Octree._triangleDistance`. -/
def mtEdge1 (t : Tri) : Vec3 := Vec3.sub t.v1 t.v0

/-- `edge2 = v2 - v0` in `Octree._triangleDistance`. -/
def mtEdge2 (t : Tri) : Vec3 := Vec3.sub t.v2 t.v0

/-- The Möller–Trumbore determinant `a = dot(edge1, h)` with
`h = cross(direction, edge2)`, computed by `Octree._triangleDistance`.
Its sign distinguishes front-facing (`a > 0`) from back-facing (`a < 0`)
triangles. -/
def mtDet (t : Tri) (direction : Vec3) : ℚ :=
  dot3 (mtEdge1 t) (cross3 direction (mtEdge2 t))

/-- The barycentric coordinate `u = f * dot(s, h)` with `f = 1/a` and
`s = origin - v0`, as computed by `Octree._triangleDistance`. -/
def mtU (t : Tri) (origin direction : Vec3) : ℚ :=
  (1 / mtDet t direction) *
    dot3 (Vec3.sub origin t.v0) (cross3 direction (mtEdge2 t))

/-- `q = cross(s, edge1)` in `Octree._triangleDistance`. -/
def mtQ (t : Tri) (origin : Vec3) : Vec3 :=
  cross3 (Vec3.sub origin t.v0) (mtEdge1 t)

/-- The barycentric coordinate `v = f * dot(direction, q)`. -/
def mtV (t : Tri) (origin direction : Vec3) : ℚ :=
  (1 / mtDet t direction) * dot3 direction (mtQ t origin)

/-- The hit parameter `t = f * dot(edge2, q)`. -/
def mtT (t : Tri) (origin direction : Vec3) : ℚ :=
  (1 / mtDet t direction) * dot3 (mtEdge2 t) (mtQ t origin)

/-- `Octree._triangleDistance` (lines 9395-9451): the Möller–Trumbore
ray-triangle intersection, returning the hit distance `t` or `null`. -/
def triangleDistance (tri : Tri) (origin direction : Vec3) : Option ℚ :=
  let a := mtDet tri direction
  if -epsJS < a ∧ a < epsJS then
    none        -- this ray is parallel to this triangle
  else
    let u := mtU tri origin direction
    if u < 0 ∨ u > 1 then none
    else
      let v := mtV tri origin direction
      if v < 0 ∨ u + v > 1 then none
      else
        let t := mtT tri origin direction
        if t ≤ epsJS then none   -- line intersection but not a ray intersection
        else some t

/-- An axis-aligned box `{minx, ..., maxz}` of an octree node. -/
structure Box where
  minx : ℚ
  miny : ℚ
  minz : ℚ
  maxx : ℚ
  maxy : ℚ
  maxz : ℚ
deriving DecidableEq, Repr

/-- `Octree._hitsBox`: separating-axis test between the segment
`origin → endP` and the box. -/
def hitsBox (origin endP : Vec3) (box : Box) : Bool :=
  let dx := endP.x - origin.x
  let adx := |dx|
  let ex := box.maxx - box.minx
  let cx := (origin.x * 2 + dx) - (box.minx + box.maxx)
  if |cx| > ex + adx then false
  else
    let dy := endP.y - origin.y
    let ady := |dy|
    let ey := box.maxy - box.miny
    let cy := (origin.y * 2 + dy) - (box.miny + box.maxy)
    if |cy| > ey + ady then false
    else
      let dz := endP.z - origin.z
      let adz := |dz|
      let ez := box.maxz - box.minz
      let cz := (origin.z * 2 + dz) - (box.minz + box.maxz)
      if |cz| > ez + adz then false
      else
        if |dy * cz - dz * cy| > ey * adz + ez * ady + epsJS then false
        else if |dz * cx - dx * cz| > ez * adx + ex * adz + epsJS then false
        else if |dx * cy - dy * cx| > ex * ady + ey * adx + epsJS then false
        else true

/-- `Octree._hitsTriangles`: true when some triangle's distance
(`null` coalesced to `max`) is `< max`. -/
def hitsTriangles (triangles : List Tri) (origin direction : Vec3) (max : ℚ) : Bool :=
  triangles.any fun t => ((triangleDistance t origin direction).getD max) < max

/-- JS `minDistance || max`: truthy-or, so both `null` and `0` yield `max`. -/
def jsOrD (m : Option ℚ) (max : ℚ) : ℚ :=
  match m with
  | none => max
  | some v => if v = 0 then max else v

/-- The accumulator loop of `Octree._distanceToTriangles`:
`if (distance) { minDistance = Math.min(minDistance || max, distance); }`.
JS `if (distance)` is a truthiness test, skipping both `null` and `0`. -/
def distanceToTrianglesGo (origin direction : Vec3) (max : ℚ) :
    List Tri → Option ℚ → Option ℚ
  | [], m => m
  | t :: ts, m =>
    match triangleDistance t origin direction with
    | none => distanceToTrianglesGo origin direction max ts m
    | some d =>
      if d = 0 then distanceToTrianglesGo origin direction max ts m
      else distanceToTrianglesGo origin direction max ts (some (min (jsOrD m max) d))

/-- `Octree._distanceToTriangles`. -/
def distanceToTriangles (triangles : List Tri) (origin direction : Vec3) (max : ℚ) :
    Option ℚ :=
  distanceToTrianglesGo origin direction max triangles none

/-- An octree node: a box with either a leaf triangle buffer or child
partitions (the source stores `triangles` xor `partitions`). -/
inductive Octree where
  | leaf (box : Box) (triangles : List Tri)
  | node (box : Box) (children : List Octree)
deriving Repr

mutual

/-- `Octree._hitsOctree` (lines 9292-9307). -/
def Octree.hits (origin direction : Vec3) (max : ℚ) (endP : Vec3) : Octree → Bool
  | .leaf box triangles =>
    hitsBox origin endP box && hitsTriangles triangles origin direction max
  | .node box children =>
    hitsBox origin endP box && Octree.hitsList origin direction max endP children

/-- The partition loop of `_hitsOctree`: return true on the first hit. -/
def Octree.hitsList (origin direction : Vec3) (max : ℚ) (endP : Vec3) :
    List Octree → Bool
  | [] => false
  | p :: ps =>
    Octree.hits origin direction max endP p ||
      Octree.hitsList origin direction max endP ps

end

mutual

/-- `Octree._distanceToOctree` (lines 9309-9327). -/
def Octree.distanceTo (origin direction : Vec3) (max : ℚ) (endP : Vec3) :
    Octree → Option ℚ
  | .leaf box triangles =>
    if hitsBox origin endP box then
      distanceToTriangles triangles origin direction max
    else none
  | .node box children =>
    if hitsBox origin endP box then
      Octree.distanceList origin direction max endP children none
    else none

/-- The partition loop of `_distanceToOctree`:
`if (distance) { minDistance = Math.min(minDistance ?? max, distance); }`. -/
def Octree.distanceList (origin direction : Vec3) (max : ℚ) (endP : Vec3) :
    List Octree → Option ℚ → Option ℚ
  | [], m => m
  | p :: ps, m =>
    match Octree.distanceTo origin direction max endP p with
    | none => Octree.distanceList origin direction max endP ps m
    | some d =>
      if d = 0 then Octree.distanceList origin direction max endP ps m
      else Octree.distanceList origin direction max endP ps (some (min (m.getD max) d))

end

mutual

/-- All triangles stored in an octree (leaf buffers, in order). -/
def Octree.allTriangles : Octree → List Tri
  | .leaf _ triangles => triangles
  | .node _ children => Octree.allTrianglesList children

/-- All triangles of a list of octree nodes. -/
def Octree.allTrianglesList : List Octree → List Tri
  | [] => []
  | p :: ps => Octree.allTriangles p ++ Octree.allTrianglesList ps

end

/-! ### Properties of the octree ray queries (claims C1 and C4) -/

theorem epsJS_pos : 0 < epsJS := by norm_num [epsJS]

/-- Every distance returned by `_triangleDistance` is `> Number.EPSILON`
(the final guard rejects `t <= EPSILON`). -/
theorem triangleDistance_some_gt {tri : Tri} {origin direction : Vec3} {v : ℚ}
    (h : triangleDistance tri origin direction = some v) : epsJS < v := by
  simp only [triangleDistance] at h
  split at h
  · exact absurd h (by simp)
  · split at h
    · exact absurd h (by simp)
    · split at h
      · exact absurd h (by simp)
      · split at h
        · exact absurd h (by simp)
        · rename_i ht
          cases h
          exact lt_of_not_le ht

theorem triangleDistance_some_pos {tri : Tri} {origin direction : Vec3} {v : ℚ}
    (h : triangleDistance tri origin direction = some v) : 0 < v :=
  lt_trans epsJS_pos (triangleDistance_some_gt h)

theorem Option.getD_lt_iff {m : Option ℚ} {c : ℚ} :
    m.getD c < c ↔ ∃ d, m = some d ∧ d < c := by
  cases m <;> simp

/-- `_hitsTriangles` is true exactly when some triangle is hit at a distance
strictly below `max`. -/
theorem hitsTriangles_iff {triangles : List Tri} {origin direction : Vec3} {max : ℚ} :
    hitsTriangles triangles origin direction max = true ↔
      ∃ t ∈ triangles, ∃ d, triangleDistance t origin direction = some d ∧ d < max := by
  simp only [hitsTriangles, List.any_eq_true, decide_eq_true_eq, Option.getD_lt_iff]

/-- Invariant of the running minimum in `_distanceToTriangles` and
`_distanceToOctree`: it is absent, exactly `max`, or a positive value `≤ max`. -/
def accInv (max : ℚ) (m : Option ℚ) : Prop :=
  m = none ∨ m = some max ∨ ∃ v, m = some v ∧ 0 < v ∧ v ≤ max

theorem accInv_none {max : ℚ} : accInv max none := Or.inl rfl

theorem jsOrD_spec {max : ℚ} {m : Option ℚ} (h : accInv max m) :
    jsOrD m max ≤ max ∧ (jsOrD m max < max ↔ ∃ v, m = some v ∧ v < max) := by
  rcases h with h | h | ⟨v, h, hv0, hvle⟩ <;> subst h
  · simp [jsOrD]
  · have h2 : jsOrD (some max) max = max := by simp [jsOrD]
    rw [h2]
    simp
  · simp only [jsOrD, if_neg (ne_of_gt hv0)]
    exact ⟨hvle, by simp⟩

theorem getD_acc_spec {max : ℚ} {m : Option ℚ} (h : accInv max m) :
    m.getD max ≤ max ∧ (m.getD max < max ↔ ∃ v, m = some v ∧ v < max) := by
  rcases h with h | h | ⟨v, h, hv0, hvle⟩ <;> subst h
  · simp
  · simp
  · exact ⟨by simpa using hvle, by simp⟩

theorem accInv_w {max : ℚ} {m : Option ℚ} (hm : accInv max m)
    (w : ℚ) (hw : w = jsOrD m max ∨ w = m.getD max) :
    w ≤ max ∧ (0 < w ∨ w = max) := by
  refine ⟨?_, ?_⟩
  · rcases hw with h | h <;> subst h
    · exact (jsOrD_spec hm).1
    · exact (getD_acc_spec hm).1
  · rcases hm with h | h | ⟨v, h, hv0, hvle⟩ <;> subst h <;>
      rcases hw with h | h <;> subst h
    · exact Or.inr (by simp [jsOrD])
    · exact Or.inr (by simp)
    · exact Or.inr (by simp [jsOrD])
    · exact Or.inr (by simp)
    · exact Or.inl (by simpa [jsOrD, if_neg (ne_of_gt hv0)] using hv0)
    · exact Or.inl (by simpa using hv0)

theorem accInv_min {max d : ℚ} {m : Option ℚ} (hm : accInv max m)
    (hd : 0 < d ∨ d = max) (w : ℚ) (hw : w = jsOrD m max ∨ w = m.getD max) :
    accInv max (some (min w d)) := by
  obtain ⟨hwle, hwpos⟩ := accInv_w hm w hw
  rcases hd with hd | rfl
  · rcases le_total w d with hle | hle
    · rw [min_eq_left hle]
      rcases hwpos with h | h
      · exact Or.inr (Or.inr ⟨w, rfl, h, hwle⟩)
      · exact Or.inr (Or.inl (by rw [h]))
    · rw [min_eq_right hle]
      rcases le_or_lt max d with hmd | hmd
      · have : d = max := le_antisymm (le_trans hle hwle) hmd
        exact Or.inr (Or.inl (by rw [this]))
      · exact Or.inr (Or.inr ⟨d, rfl, hd, le_of_lt hmd⟩)
  · rw [min_eq_left hwle]
    rcases hwpos with h | h
    · exact Or.inr (Or.inr ⟨w, rfl, h, hwle⟩)
    · exact Or.inr (Or.inl (by rw [h]))

/-- Full characterisation of the `_distanceToTriangles` accumulator loop. -/
theorem distanceToTrianglesGo_spec (origin direction : Vec3) (max : ℚ) :
    ∀ (ts : List Tri) (m : Option ℚ), accInv max m →
      accInv max (distanceToTrianglesGo origin direction max ts m) ∧
      ((∃ v, distanceToTrianglesGo origin direction max ts m = some v ∧ v < max) ↔
        (∃ v, m = some v ∧ v < max) ∨
        ∃ t ∈ ts, ∃ d, triangleDistance t origin direction = some d ∧ d < max) := by
  intro ts
  induction ts with
  | nil => intro m hm; simp [distanceToTrianglesGo, hm]
  | cons t ts ih =>
    intro m hm
    simp only [distanceToTrianglesGo]
    rcases htd : triangleDistance t origin direction with _ | d
    · dsimp only
      have := ih m hm
      refine ⟨this.1, ?_⟩
      rw [this.2]
      simp [htd]
    · dsimp only
      have hdpos : 0 < d := triangleDistance_some_pos htd
      rw [if_neg (ne_of_gt hdpos)]
      have hm2 : accInv max (some (min (jsOrD m max) d)) :=
        accInv_min hm (Or.inl hdpos) _ (Or.inl rfl)
      have := ih _ hm2
      refine ⟨this.1, ?_⟩
      rw [this.2]
      constructor
      · rintro (⟨v, hv, hvlt⟩ | h)
        · cases hv
          rcases min_lt_iff.mp hvlt with h | h
          · exact Or.inl ((jsOrD_spec hm).2.mp h)
          · exact Or.inr ⟨t, by simp, d, htd, h⟩
        · obtain ⟨u, hu, hud⟩ := h
          exact Or.inr ⟨u, List.mem_cons_of_mem _ hu, hud⟩
      · rintro (h | ⟨u, hu, e, he, helt⟩)
        · refine Or.inl ⟨_, rfl, min_lt_iff.mpr (Or.inl ((jsOrD_spec hm).2.mpr h))⟩
        · rcases List.mem_cons.mp hu with rfl | hu
          · rw [htd] at he
            cases he
            exact Or.inl ⟨_, rfl, min_lt_iff.mpr (Or.inr helt)⟩
          · exact Or.inr ⟨u, hu, e, he, helt⟩

/-- Structural induction over `Octree` exposing membership in the
children list. -/
def Octree.recMem {P : Octree → Prop}
    (hleaf : ∀ b ts, P (.leaf b ts))
    (hnode : ∀ b ps, (∀ p ∈ ps, P p) → P (.node b ps)) : (o : Octree) → P o
  | .leaf b ts => hleaf b ts
  | .node b ps => hnode b ps (fun p hp => Octree.recMem hleaf hnode p)
termination_by o => sizeOf o
decreasing_by
  have := List.sizeOf_lt_of_mem hp
  simp only [Octree.node.sizeOf_spec]
  omega

/-- The partition loop of `_distanceToOctree`, assuming the per-child
specification. -/
theorem distanceList_spec {origin direction endP : Vec3} {max : ℚ}
    (ps : List Octree)
    (hps : ∀ p ∈ ps,
      accInv max (Octree.distanceTo origin direction max endP p) ∧
      ((∃ v, Octree.distanceTo origin direction max endP p = some v ∧ v < max) ↔
        Octree.hits origin direction max endP p = true)) :
    ∀ m, accInv max m →
      accInv max (Octree.distanceList origin direction max endP ps m) ∧
      ((∃ v, Octree.distanceList origin direction max endP ps m = some v ∧ v < max) ↔
        (∃ v, m = some v ∧ v < max) ∨
        Octree.hitsList origin direction max endP ps = true) := by
  induction ps with
  | nil => intro m hm; simp [Octree.distanceList, Octree.hitsList, hm]
  | cons p ps ih =>
    intro m hm
    have hp := hps p (by simp)
    have hps2 : ∀ q ∈ ps,
        accInv max (Octree.distanceTo origin direction max endP q) ∧
        ((∃ v, Octree.distanceTo origin direction max endP q = some v ∧ v < max) ↔
          Octree.hits origin direction max endP q = true) :=
      fun q hq => hps q (List.mem_cons_of_mem _ hq)
    simp only [Octree.distanceList, Octree.hitsList]
    rcases hd : Octree.distanceTo origin direction max endP p with _ | d
    · dsimp only
      have hph : Octree.hits origin direction max endP p = false := by
        rcases h : Octree.hits origin direction max endP p
        · rfl
        · obtain ⟨v, hv, _⟩ := hp.2.mpr h
          rw [hd] at hv; cases hv
      have := ih hps2 m hm
      refine ⟨this.1, ?_⟩
      rw [this.2, hph]
      simp
    · dsimp only
      rcases eq_or_ne d 0 with rfl | hd0
      · -- a zero distance is skipped by the truthiness test; it can only
        -- arise when max = 0, in which case the child also does not hit
        have hph : Octree.hits origin direction max endP p = false := by
          rcases h : Octree.hits origin direction max endP p
          · rfl
          · obtain ⟨v, hv, hvlt⟩ := hp.2.mpr h
            rw [hd] at hv
            cases hv
            have hmax0 : max = 0 := by
              rcases hp.1 with h2 | h2 | ⟨w, hw, hw0, _⟩ <;> rw [hd] at *
              · exact absurd h2 (by simp)
              · cases h2; rfl
              · cases hw; exact absurd hw0 (by simp)
            rw [hmax0] at hvlt
            exact absurd hvlt (by simp)
        rw [if_pos rfl]
        have := ih hps2 m hm
        refine ⟨this.1, ?_⟩
        rw [this.2, hph]
        simp
      · rw [if_neg hd0]
        have hdcase : 0 < d ∨ d = max := by
          rcases hp.1 with h | h | ⟨w, hw, hw0, hwle⟩ <;> rw [hd] at *
          · exact absurd h (by simp)
          · cases h; exact Or.inr rfl
          · cases hw; exact Or.inl hw0
        have hm2 : accInv max (some (min (m.getD max) d)) :=
          accInv_min hm hdcase _ (Or.inr rfl)
        have := ih hps2 _ hm2
        refine ⟨this.1, ?_⟩
        rw [this.2]
        constructor
        · rintro (⟨v, hv, hvlt⟩ | h)
          · cases hv
            rcases min_lt_iff.mp hvlt with h | h
            · exact Or.inl ((getD_acc_spec hm).2.mp h)
            · refine Or.inr (by rw [Bool.or_eq_true]; exact Or.inl (hp.2.mp ⟨d, hd, h⟩))
          · exact Or.inr (by rw [Bool.or_eq_true]; exact Or.inr h)
        · rintro (h | h)
          · exact Or.inl ⟨_, rfl, min_lt_iff.mpr (Or.inl ((getD_acc_spec hm).2.mpr h))⟩
          · rw [Bool.or_eq_true] at h
            rcases h with h | h
            · obtain ⟨v, hv, hvlt⟩ := hp.2.mpr h
              rw [hd] at hv
              cases hv
              exact Or.inl ⟨_, rfl, min_lt_iff.mpr (Or.inr hvlt)⟩
            · exact Or.inr h

/-- Joint specification of `_distanceToOctree` and `_hitsOctree`: the
returned distance satisfies the accumulator invariant (in particular it is
never `> max`), and `_hitsOctree` is true exactly when `_distanceToOctree`
returns a value `< max`. -/
theorem distanceTo_spec (origin direction endP : Vec3) (max : ℚ) (oct : Octree) :
    accInv max (Octree.distanceTo origin direction max endP oct) ∧
    ((∃ v, Octree.distanceTo origin direction max endP oct = some v ∧ v < max) ↔
      Octree.hits origin direction max endP oct = true) := by
  induction oct using Octree.recMem with
  | hleaf b ts =>
    simp only [Octree.distanceTo, Octree.hits, distanceToTriangles]
    cases hb : hitsBox origin endP b with
    | false => simp [hb, accInv]
    | true =>
      simp only [hb, if_true, Bool.true_and]
      have hgo := distanceToTrianglesGo_spec origin direction max ts none accInv_none
      refine ⟨hgo.1, ?_⟩
      rw [hgo.2, hitsTriangles_iff]
      simp
  | hnode b ps ih =>
    simp only [Octree.distanceTo, Octree.hits]
    cases hb : hitsBox origin endP b with
    | false => simp [hb, accInv]
    | true =>
      simp only [hb, if_true, Bool.true_and]
      have hl := distanceList_spec ps ih none accInv_none
      refine ⟨hl.1, ?_⟩
      rw [hl.2]
      simp

/-- A successful `_hitsOctree` query exhibits a triangle of the octree hit
at a distance below `max`. -/
theorem hits_implies_triangle {origin direction endP : Vec3} {max : ℚ} (oct : Octree)
    (h : Octree.hits origin direction max endP oct = true) :
    ∃ t ∈ oct.allTriangles, ∃ d,
      triangleDistance t origin direction = some d ∧ d < max := by
  induction oct using Octree.recMem with
  | hleaf b ts =>
    simp only [Octree.hits, Bool.and_eq_true] at h
    exact hitsTriangles_iff.mp h.2
  | hnode b ps ih =>
    simp only [Octree.hits, Bool.and_eq_true] at h
    have h2 := h.2
    clear h
    induction ps with
    | nil => simp [Octree.hitsList] at h2
    | cons p ps ih2 =>
      simp only [Octree.hitsList, Bool.or_eq_true] at h2
      rcases h2 with h | h
      · obtain ⟨t, ht, d, hd, hdlt⟩ := ih p (by simp) h
        exact ⟨t, by simp [Octree.allTriangles, Octree.allTrianglesList, ht], d, hd, hdlt⟩
      · obtain ⟨t, ht, d, hd, hdlt⟩ :=
          ih2 (fun q hq hh => ih q (List.mem_cons_of_mem _ hq) hh) h
        simp only [Octree.allTriangles, Octree.allTrianglesList] at ht ⊢
        exact ⟨t, by simp [List.mem_append, ht], d, hd, hdlt⟩

/-! ### Claim C1 -/

/-- Concrete triangle in the plane z = 5, hit by the ray below at t = 5. -/
def c1Tri : Tri := ⟨⟨-10, -10, 5⟩, ⟨10, -10, 5⟩, ⟨0, 10, 5⟩⟩

/-- A one-leaf octree containing `c1Tri`. -/
def c1Oct : Octree := .leaf ⟨-10, -10, -10, 10, 10, 10⟩ [c1Tri]

/-- **C1 counterexample.**  For the query with origin (0,0,0), direction
(0,0,1), max 3, end (0,0,3) against `c1Oct`, the only triangle is hit at
distance 5, beyond the queried segment — yet `_distanceToOctree` returns
3 = max: a distance ≥ max, and not null, refuting both "never returns a
distance ≥ max" and "returns null when no triangle intersects the segment"
(the `Math.min(minDistance || max, distance)` clamp produces `max` itself). -/
theorem C1_counterexample :
    Octree.distanceTo ⟨0, 0, 0⟩ ⟨0, 0, 1⟩ 3 ⟨0, 0, 3⟩ c1Oct = some 3 ∧
    ¬ (3 : ℚ) < 3 ∧
    triangleDistance c1Tri ⟨0, 0, 0⟩ ⟨0, 0, 1⟩ = some 5 ∧ ¬ (5 : ℚ) ≤ 3 := by
  norm_num [c1Oct, c1Tri, Octree.distanceTo, hitsBox, distanceToTriangles,
    distanceToTrianglesGo, triangleDistance, jsOrD, mtDet, mtU, mtV, mtT, mtQ,
    mtEdge1, mtEdge2, dot3, cross3, Vec3.sub, epsJS]

/-- **C1 (amended).**  For every ray query against an octree:
`_distanceToOctree` never returns a distance strictly greater than the
queried `max` (it can return exactly `max`); when no triangle of the octree
is hit at a distance `< max` — in particular when no triangle intersects the
queried segment — it returns null or exactly `max`; and `_hitsOctree`
returns true exactly when `_distanceToOctree` returns a non-null distance
`< max`. -/
theorem C1_amended_distance_bounded_hits_agree
    (origin direction endP : Vec3) (max : ℚ) (oct : Octree) :
    (∀ v, Octree.distanceTo origin direction max endP oct = some v → v ≤ max) ∧
    ((¬ ∃ t ∈ oct.allTriangles, ∃ d,
        triangleDistance t origin direction = some d ∧ d < max) →
      Octree.distanceTo origin direction max endP oct = none ∨
        Octree.distanceTo origin direction max endP oct = some max) ∧
    (Octree.hits origin direction max endP oct = true ↔
      ∃ v, Octree.distanceTo origin direction max endP oct = some v ∧ v < max) := by
  obtain ⟨hacc, hiff⟩ := distanceTo_spec origin direction endP max oct
  refine ⟨?_, ?_, hiff.symm⟩
  · intro v hv
    rcases hacc with h | h | ⟨w, hw, _, hwle⟩ <;> rw [hv] at *
    · exact absurd h (by simp)
    · cases h; exact le_refl _
    · cases hw; exact hwle
  · intro hnone
    rcases h : Octree.distanceTo origin direction max endP oct with _ | v
    · exact Or.inl rfl
    · refine Or.inr ?_
      have hvle : v ≤ max := by
        rcases hacc with h2 | h2 | ⟨w, hw, _, hwle⟩ <;> rw [h] at *
        · exact absurd h2 (by simp)
        · cases h2; exact le_refl _
        · cases hw; exact hwle
      rcases eq_or_lt_of_le hvle with heq | hvlt
      · rw [heq]
      · exact absurd (hits_implies_triangle oct (hiff.mp ⟨v, h, hvlt⟩)) hnone

/-- Witness for C1: the amended theorem applied to the concrete query of the
counterexample (where the returned distance is exactly max = 3). -/
theorem C1_witness :
    (3 : ℚ) ≤ 3 ∧
    (Octree.distanceTo ⟨0, 0, 0⟩ ⟨0, 0, 1⟩ 3 ⟨0, 0, 3⟩ c1Oct = none ∨
      Octree.distanceTo ⟨0, 0, 0⟩ ⟨0, 0, 1⟩ 3 ⟨0, 0, 3⟩ c1Oct = some 3) :=
  ⟨(C1_amended_distance_bounded_hits_agree ⟨0, 0, 0⟩ ⟨0, 0, 1⟩ ⟨0, 0, 3⟩ 3 c1Oct).1 3
    (by norm_num [c1Oct, c1Tri, Octree.distanceTo, hitsBox, distanceToTriangles,
      distanceToTrianglesGo, triangleDistance, jsOrD, mtDet, mtU, mtV, mtT, mtQ,
      mtEdge1, mtEdge2, dot3, cross3, Vec3.sub, epsJS]),
   (C1_amended_distance_bounded_hits_agree ⟨0, 0, 0⟩ ⟨0, 0, 1⟩ ⟨0, 0, 3⟩ 3 c1Oct).2.1
    (by norm_num [c1Oct, c1Tri, Octree.allTriangles, triangleDistance, mtDet,
      mtU, mtV, mtT, mtQ, mtEdge1, mtEdge2, dot3, cross3, Vec3.sub, epsJS])⟩

/-! ### Claim C4 -/

/-- Concrete triangle in the plane z = 1 whose winding normal (0,0,1) points
along the ray direction below, i.e. the ray sees its back side. -/
def c4Tri : Tri := ⟨⟨0, 0, 1⟩, ⟨1, 0, 1⟩, ⟨0, 1, 1⟩⟩

/-- **C4 counterexample.**  `c4Tri` is back-facing for the ray from
(1/4,1/4,0) along (0,0,1): the Möller–Trumbore determinant is −1 < 0.  A
single-sided test would return null, but `_triangleDistance` returns the hit
at distance 1 — the implemented test is double-sided (the parallel guard
`a > -EPSILON && a < EPSILON` keeps both signs of the determinant). -/
theorem C4_counterexample :
    mtDet c4Tri ⟨0, 0, 1⟩ < 0 ∧
    triangleDistance c4Tri ⟨1/4, 1/4, 0⟩ ⟨0, 0, 1⟩ = some 1 := by
  norm_num [c4Tri, triangleDistance, mtDet, mtU, mtV, mtT, mtQ, mtEdge1,
    mtEdge2, dot3, cross3, Vec3.sub, epsJS]

/-- **C4 (amended).**  The Möller–Trumbore test `_triangleDistance` is
double-sided: it accepts hits regardless of the sign of the determinant.
It returns null for (near-)parallel rays (|det| < ε), and for barycentric
misses (u outside [0,1], v < 0, or u+v > 1); every non-null returned
distance t satisfies t > ε (ε = Number.EPSILON). -/
theorem C4_amended_triangleDistance_guards (tri : Tri) (origin direction : Vec3) :
    (∀ v, triangleDistance tri origin direction = some v → epsJS < v) ∧
    (-epsJS < mtDet tri direction ∧ mtDet tri direction < epsJS →
      triangleDistance tri origin direction = none) ∧
    (mtU tri origin direction < 0 ∨ mtU tri origin direction > 1 →
      triangleDistance tri origin direction = none) ∧
    (mtV tri origin direction < 0 ∨
        mtU tri origin direction + mtV tri origin direction > 1 →
      triangleDistance tri origin direction = none) := by
  refine ⟨fun v hv => triangleDistance_some_gt hv, ?_, ?_, ?_⟩
  · intro h
    simp only [triangleDistance]
    rw [if_pos h]
  · intro h
    simp only [triangleDistance]
    by_cases hpar : -epsJS < mtDet tri direction ∧ mtDet tri direction < epsJS
    · rw [if_pos hpar]
    · rw [if_neg hpar, if_pos h]
  · intro h
    simp only [triangleDistance]
    by_cases hpar : -epsJS < mtDet tri direction ∧ mtDet tri direction < epsJS
    · rw [if_pos hpar]
    · rw [if_neg hpar]
      by_cases hu : mtU tri origin direction < 0 ∨ mtU tri origin direction > 1
      · rw [if_pos hu]
      · rw [if_neg hu, if_pos h]

/-- Witness for C4: the amended theorem applied at concrete rays exercising
the returned-distance bound, the parallel guard, a u-miss and a v-miss. -/
theorem C4_witness :
    epsJS < 1 ∧
    triangleDistance c4Tri ⟨0, 0, 0⟩ ⟨1, 0, 0⟩ = none ∧
    triangleDistance c4Tri ⟨2, 2, 0⟩ ⟨0, 0, 1⟩ = none ∧
    triangleDistance c4Tri ⟨1/4, -1, 0⟩ ⟨0, 0, 1⟩ = none :=
  ⟨(C4_amended_triangleDistance_guards c4Tri ⟨1/4, 1/4, 0⟩ ⟨0, 0, 1⟩).1 1
    (by norm_num [c4Tri, triangleDistance, mtDet, mtU, mtV, mtT, mtQ, mtEdge1,
      mtEdge2, dot3, cross3, Vec3.sub, epsJS]),
   (C4_amended_triangleDistance_guards c4Tri ⟨0, 0, 0⟩ ⟨1, 0, 0⟩).2.1
    (by norm_num [c4Tri, mtDet, mtEdge1, mtEdge2, dot3, cross3, Vec3.sub, epsJS]),
   (C4_amended_triangleDistance_guards c4Tri ⟨2, 2, 0⟩ ⟨0, 0, 1⟩).2.2.1
    (Or.inr (by norm_num [c4Tri, mtU, mtDet, mtEdge1, mtEdge2, dot3, cross3,
      Vec3.sub])),
   (C4_amended_triangleDistance_guards c4Tri ⟨1/4, -1, 0⟩ ⟨0, 0, 1⟩).2.2.2
    (Or.inl (by norm_num [c4Tri, mtV, mtQ, mtDet, mtEdge1, mtEdge2, dot3,
      cross3, Vec3.sub]))⟩

/-! ### The voxel store (`VoxelMatrix`, claims C2 and C10)

`VoxelMatrix` keeps per-group sparse chunk arrays keyed by
`matrixId = (x>>4) + ((y>>4)<<10) + ((z>>4)<<20)` and
`index = (x&15) + ((y&15)<<4) + ((z&15)<<8)`, a running bounding box
(initialised to ±Infinity, modelled as `Option`), and an incrementally
maintained `_count`.  The nested sparse arrays are modelled as one function
`cells : groupId → matrixId → index → Option Voxel` (absence at any level of
the JS nesting is absence of the cell).  Coordinate keys are computed after
`toNat`; `setVoxel` rejects negative coordinates before any mutation, so
stored cells always have non-negative coordinates (JS 32-bit shifts agree
with ℕ shifts on that range). -/

/-- An integer bounding box (`BoundingBox` fields once set). -/
structure BBoxI where
  minX : ℤ
  minY : ℤ
  minZ : ℤ
  maxX : ℤ
  maxY : ℤ
  maxZ : ℤ
deriving DecidableEq, Repr

/-- `BoundingBox.set`: min/max update, where `none` is the reset state with
±Infinity bounds (so the first `set` yields a degenerate box). -/
def bboxSet (b : Option BBoxI) (x y z : ℤ) : Option BBoxI :=
  match b with
  | none => some ⟨x, y, z, x, y, z⟩
  | some b => some ⟨min b.minX x, min b.minY y, min b.minZ z,
                    max b.maxX x, max b.maxY y, max b.maxZ z⟩

/-- The data of a `Voxel` instance needed here: its owning group id.
(The colour/material reference plays no role in the counting claims.) -/
structure VoxelJS where
  group : ℕ
deriving DecidableEq, Repr

/-- The `voxel` argument of `setVoxel`: either an actual `Voxel` instance or
any other value (failing the `instanceof Voxel` check). -/
inductive SetVoxelArg where
  | vox (v : VoxelJS)
  | notAVoxel
deriving DecidableEq, Repr

/-- `matrixId = (x >> 4) + ((y >> 4) << 10) + ((z >> 4) << 20)`. -/
def matrixIdOf (x y z : ℕ) : ℕ :=
  (x >>> 4) + ((y >>> 4) <<< 10) + ((z >>> 4) <<< 20)

/-- `index = (x & 15) + ((y & 15) << 4) + ((z & 15) << 8)`. -/
def cellIndexOf (x y z : ℕ) : ℕ :=
  (x &&& 15) + ((y &&& 15) <<< 4) + ((z &&& 15) <<< 8)

/-- The state of a `VoxelMatrix`. -/
structure VoxelMatrix where
  bounds : Option BBoxI
  count : ℤ
  cells : ℕ → ℕ → ℕ → Option VoxelJS

/-- A freshly constructed `VoxelMatrix`. -/
def emptyVoxelMatrix : VoxelMatrix := ⟨none, 0, fun _ _ _ => none⟩

/-- `VoxelMatrix.setVoxel` (lines 525-554), in state-passing style: the
result is the state after the call paired with the thrown error message, if
any.  Both guards run before any mutation, exactly as in the source. -/
def VoxelMatrix.setVoxel (vm : VoxelMatrix) (x y z : ℤ) (arg : SetVoxelArg) :
    VoxelMatrix × Option String :=
  match arg with
  | .notAVoxel =>
    (vm, some "setVoxel requires a Voxel set to an existing color of a material of this model.")
  | .vox voxel =>
    if x < 0 ∨ y < 0 ∨ z < 0 then
      (vm, some "setVoxel must have positive values for x, y and z.")
    else
      let mid := matrixIdOf x.toNat y.toNat z.toNat
      let idx := cellIndexOf x.toNat y.toNat z.toNat
      let newCount :=
        match vm.cells voxel.group mid idx with
        | none => vm.count + 1
        | some _ => vm.count
      (⟨bboxSet vm.bounds x y z, newCount,
        fun g m i =>
          if g = voxel.group ∧ m = mid ∧ i = idx then some voxel
          else vm.cells g m i⟩, none)

/-- `VoxelMatrix.clearVoxel` (lines 556-573).  The `!groupId` truthiness
guard treats the id 0 as missing. -/
def VoxelMatrix.clearVoxel (vm : VoxelMatrix) (x y z : ℤ) (groupId : ℕ) :
    VoxelMatrix × Option String :=
  if groupId = 0 then
    (vm, some "clearVoxel(x, y, z, groupId) must be called with a groupId")
  else
    let mid := matrixIdOf x.toNat y.toNat z.toNat
    let idx := cellIndexOf x.toNat y.toNat z.toNat
    match vm.cells groupId mid idx with
    | some _ =>
      (⟨vm.bounds, vm.count - 1,
        fun g m i =>
          if g = groupId ∧ m = mid ∧ i = idx then none
          else vm.cells g m i⟩, none)
    | none => (vm, none)

/-- `setVoxel` followed by `clearVoxel` on the same cell (the cleared group
is the group of the voxel just set). -/
def setThenClear (vm : VoxelMatrix) (x y z : ℤ) (v : VoxelJS) : VoxelMatrix :=
  ((vm.setVoxel x y z (.vox v)).1.clearVoxel x y z v.group).1

/-! ### Claim C2 -/

/-- The store used by the C2 counterexample: one voxel of group 1 already
lives at cell (0,0,0). -/
def c2Store : VoxelMatrix := (emptyVoxelMatrix.setVoxel 0 0 0 (.vox ⟨1⟩)).1

/-- **C2 counterexample.**  On a store whose cell (0,0,0) is already
occupied (count 1), calling `setVoxel` then `clearVoxel` on that same cell
leaves count 0, not 1: `setVoxel` does not increment the count for an
occupied cell but `clearVoxel` decrements it, so the pair of calls removes
the pre-existing voxel. -/
theorem C2_counterexample :
    c2Store.count = 1 ∧ (setThenClear c2Store 0 0 0 ⟨1⟩).count = 0 := by
  constructor <;> rfl

/-- **C2 (amended).**  For every voxel store and cell: if the cell is empty
beforehand, `setVoxel` followed by `clearVoxel` on that cell leaves the
live-voxel count unchanged; if the cell was already occupied, the count
drops by exactly one (the pre-existing voxel is removed). -/
theorem C2_amended_setThenClear_count (vm : VoxelMatrix) (x y z : ℤ) (v : VoxelJS)
    (hx : 0 ≤ x) (hy : 0 ≤ y) (hz : 0 ≤ z) (hg : v.group ≠ 0) :
    (vm.cells v.group (matrixIdOf x.toNat y.toNat z.toNat)
        (cellIndexOf x.toNat y.toNat z.toNat) = none →
      (setThenClear vm x y z v).count = vm.count) ∧
    (vm.cells v.group (matrixIdOf x.toNat y.toNat z.toNat)
        (cellIndexOf x.toNat y.toNat z.toNat) ≠ none →
      (setThenClear vm x y z v).count = vm.count - 1) := by
  have hneg : ¬(x < 0 ∨ y < 0 ∨ z < 0) := by
    push_neg
    exact ⟨hx, hy, hz⟩
  constructor <;> intro hcell <;>
    simp only [setThenClear, VoxelMatrix.setVoxel, if_neg hneg,
      VoxelMatrix.clearVoxel, if_neg hg] <;>
    rcases hocc : vm.cells v.group (matrixIdOf x.toNat y.toNat z.toNat)
      (cellIndexOf x.toNat y.toNat z.toNat) with _ | w <;>
    simp_all

/-- Witness for C2: the amended theorem applied to the empty store at cell
(0,0,0) with a group-1 voxel. -/
theorem C2_witness :
    emptyVoxelMatrix.cells 1 (matrixIdOf 0 0 0) (cellIndexOf 0 0 0) = none ∧
    (setThenClear emptyVoxelMatrix 0 0 0 ⟨1⟩).count = emptyVoxelMatrix.count :=
  ⟨rfl,
   (C2_amended_setThenClear_count emptyVoxelMatrix 0 0 0 ⟨1⟩ (by norm_num)
     (by norm_num) (by norm_num) (by norm_num)).1 rfl⟩

/-! ### Claim C10 -/

/-- **C10.**  `setVoxel` throws on any negative coordinate and on any
argument that is not a `Voxel` instance, and it throws before any mutation:
the returned state is exactly the input state (bounds and count included). -/
theorem C10_setVoxel_guards (vm : VoxelMatrix) (x y z : ℤ) (arg : SetVoxelArg)
    (h : x < 0 ∨ y < 0 ∨ z < 0 ∨ arg = .notAVoxel) :
    ∃ msg, vm.setVoxel x y z arg = (vm, some msg) := by
  cases arg with
  | notAVoxel => exact ⟨_, rfl⟩
  | vox v =>
    have hneg : x < 0 ∨ y < 0 ∨ z < 0 := by
      rcases h with h | h | h | h
      · exact Or.inl h
      · exact Or.inr (Or.inl h)
      · exact Or.inr (Or.inr h)
      · cases h
    exact ⟨"setVoxel must have positive values for x, y and z.",
      by simp only [VoxelMatrix.setVoxel, if_pos hneg]⟩

/-- Witness for C10: a negative x coordinate and a non-Voxel argument, both
on a store with one voxel; the store (bounds, count, cells) is untouched. -/
theorem C10_witness :
    (∃ msg, c2Store.setVoxel (-1) 2 3 (.vox ⟨1⟩) = (c2Store, some msg)) ∧
    (∃ msg, c2Store.setVoxel 1 2 3 .notAVoxel = (c2Store, some msg)) :=
  ⟨C10_setVoxel_guards c2Store (-1) 2 3 (.vox ⟨1⟩) (Or.inl (by norm_num)),
   C10_setVoxel_guards c2Store 1 2 3 .notAVoxel (Or.inr (Or.inr (Or.inr rfl)))⟩

/-! ### The deformer (claim C5)

Vertices are modelled as an arena (`List VertexD`) with adjacency links
stored as indices.  `Deformer.deform` stages a new position for every
eligible vertex from the *current* positions (links are read from the
pre-pass state, since the source only writes positions in
`_repositionChangedVertices` after the full pass) and then commits staged
positions axis-wise unless flatten/clamp lock the axis. -/

/-- A `material.deform` record: `count`, `strength`, `damping`. -/
structure DeformSpec where
  count : ℕ
  strength : ℚ
  damping : ℚ
deriving DecidableEq, Repr

/-- Per-axis flatten or clamp locks of a vertex. -/
structure AxisLocks where
  x : Bool
  y : Bool
  z : Bool
deriving DecidableEq, Repr

/-- The vertex fields used by the deformer. -/
structure VertexD where
  pos : Vec3
  links : List ℕ
  deform : Option DeformSpec
  flatten : AxisLocks
  clamp : AxisLocks
deriving DecidableEq, Repr

instance : Inhabited VertexD :=
  ⟨⟨⟨0, 0, 0⟩, [], none, ⟨false, false, false⟩, ⟨false, false, false⟩⟩⟩

/-- The staged position (`newX/newY/newZ` with `newSet = true`) computed for
one vertex at deform step `step` by `Deformer.deform` (lines 8190-8226), or
`none` when the vertex is not staged. -/
def stagedPos (vs : List VertexD) (step : ℕ) (v : VertexD) : Option Vec3 :=
  match v.deform with
  | none => none
  | some d =>
    if step < d.count then     -- vertex.deform.count > step
      if v.links ≠ [] then
        let n : ℚ := v.links.length
        let sx := (v.links.map fun l => (vs.getD l default).pos.x).sum
        let sy := (v.links.map fun l => (vs.getD l default).pos.y).sum
        let sz := (v.links.map fun l => (vs.getD l default).pos.z).sum
        let offsetX := sx / n - v.pos.x
        let offsetY := sy / n - v.pos.y
        let offsetZ := sz / n - v.pos.z
        let strength := d.damping ^ step * d.strength
        if strength ≠ 0 then
          some ⟨v.pos.x + offsetX * strength,
                v.pos.y + offsetY * strength,
                v.pos.z + offsetZ * strength⟩
        else none
      else none
    else none

/-- `Deformer._repositionChangedVertices` for one vertex: commit the staged
position, but only on axes not locked by flatten or clamp. -/
def commitVertex (v : VertexD) : Option Vec3 → VertexD
  | none => v
  | some p =>
    { v with pos := ⟨if v.flatten.x || v.clamp.x then v.pos.x else p.x,
                     if v.flatten.y || v.clamp.y then v.pos.y else p.y,
                     if v.flatten.z || v.clamp.z then v.pos.z else p.z⟩ }

/-- One full deform pass at step `step`: stage from the pre-pass state, then
commit. -/
def deformPass (vs : List VertexD) (step : ℕ) : List VertexD :=
  vs.map fun v => commitVertex v (stagedPos vs step v)

/-- `Deformer.deform`: passes for steps `0, ..., maximumDeformCount - 1`. -/
def Deformer.deform (vs : List VertexD) (maximumDeformCount : ℕ) : List VertexD :=
  (List.range maximumDeformCount).foldl deformPass vs

/-- The arithmetic mean of the positions of the vertices linked to `v`. -/
def linkAverage (vs : List VertexD) (v : VertexD) : Vec3 :=
  ⟨(v.links.map fun l => (vs.getD l default).pos.x).sum / (v.links.length : ℚ),
   (v.links.map fun l => (vs.getD l default).pos.y).sum / (v.links.length : ℚ),
   (v.links.map fun l => (vs.getD l default).pos.z).sum / (v.links.length : ℚ)⟩

/-- **C5.**  With `damping = 1`, `strength = 1`, `count = 1`, a vertex with
at least one link and no flatten or clamp lock on any axis is moved by the
single deformation pass exactly to the arithmetic mean of the positions its
linked vertices had before the pass (only its position changes). -/
theorem C5_deform_moves_to_link_mean (vs : List VertexD) (i : ℕ) (v : VertexD)
    (hv : vs.get? i = some v)
    (hd : v.deform = some ⟨1, 1, 1⟩)
    (hl : v.links ≠ [])
    (hf : v.flatten = ⟨false, false, false⟩)
    (hc : v.clamp = ⟨false, false, false⟩) :
    (Deformer.deform vs 1).get? i = some { v with pos := linkAverage vs v } := by
  have hpass : Deformer.deform vs 1 = deformPass vs 0 := by
    simp [Deformer.deform, List.range_succ]
  rw [hpass, deformPass, List.get?_map, hv]
  have hn : ((v.links.length : ℚ)) ≠ 0 := by
    simpa using fun h => hl (List.length_eq_zero.mp h)
  have hstage : stagedPos vs 0 v = some (linkAverage vs v) := by
    simp only [stagedPos, hd, Nat.zero_lt_one, if_true, hl, ne_eq,
      not_false_eq_true, pow_zero, one_mul, one_ne_zero, mul_one]
    simp only [linkAverage, Option.some.injEq, Vec3.mk.injEq]
    refine ⟨by ring, by ring, by ring⟩
  simp only [Option.map_some']
  rw [hstage]
  simp [commitVertex, hf, hc]

/-- Witness for C5: a two-vertex arena where vertex 0 (at the origin, linked
to vertex 1 at (1,2,3)) moves exactly onto vertex 1's old position. -/
theorem C5_witness :
    (Deformer.deform
      [⟨⟨0, 0, 0⟩, [1], some ⟨1, 1, 1⟩, ⟨false, false, false⟩, ⟨false, false, false⟩⟩,
       ⟨⟨1, 2, 3⟩, [0], none, ⟨false, false, false⟩, ⟨false, false, false⟩⟩] 1).get? 0 =
      some ⟨⟨1, 2, 3⟩, [1], some ⟨1, 1, 1⟩, ⟨false, false, false⟩, ⟨false, false, false⟩⟩ := by
  have h := C5_deform_moves_to_link_mean
    [⟨⟨0, 0, 0⟩, [1], some ⟨1, 1, 1⟩, ⟨false, false, false⟩, ⟨false, false, false⟩⟩,
     ⟨⟨1, 2, 3⟩, [0], none, ⟨false, false, false⟩, ⟨false, false, false⟩⟩]
    0 ⟨⟨0, 0, 0⟩, [1], some ⟨1, 1, 1⟩, ⟨false, false, false⟩, ⟨false, false, false⟩⟩
    rfl rfl (by simp) rfl rfl
  rw [h]
  norm_num [linkAverage]

/-! ### The ambient-occlusion evaluator (claim C6)

`AOCalculator.calculateAmbientOcclusion` (lines 9465-9546), per face
vertex: iterate over the Fibonacci samples, skip samples whose dot product
with the vertex normal is `<= angle` (the cosine of `ao.angle`), query the
octree for the nearest hit along each accepted sample (the segment end is
`origin + direction * max`), accumulate `distance ?? max`, and finally
`ao = count === 0 ? 0 : 1 - Math.pow(clamp01(total/max/count), intensity)`.
The sample directions and the cosine are produced by transcendental
functions and enter only as parameters; `Math.pow` (whose only property
used here is `pow(1, e) = 1`, true in JS for every `e`) is likewise a
parameter. -/

/-- The AO factor computed for one vertex, given the sample directions, the
vertex normal, `cos(ao.angle)`, the scaled `maxDistance`, the intensity,
and the octree queried.  `powFn` stands for `Math.pow`. -/
def aoVertexFactor (powFn : ℚ → ℚ → ℚ) (samples : List Vec3) (normal : Vec3)
    (cosAngle maxDist intensity : ℚ) (octree : Octree) (origin : Vec3) : ℚ :=
  let accepted := samples.filter fun s => cosAngle < dot3 s normal
  let results := accepted.map fun s =>
    Octree.distanceTo origin s maxDist
      ⟨origin.x + s.x * maxDist, origin.y + s.y * maxDist,
       origin.z + s.z * maxDist⟩ octree
  let total := (results.map fun r => r.getD maxDist).sum
  let count := results.length
  if count = 0 then 0
  else 1 - powFn (max (min (total / maxDist / (count : ℚ)) 1) 0) intensity

/-- **C6.**  If every accepted sample ray misses (the octree query returns
null for all of them — the situation of an isolated voxel with no other
geometry within `maxDistance` and no `aoSides`), the computed AO factor of
the vertex is exactly 0: the average of `distance/maxDistance` is 1 and
`1 - 1^intensity = 0` (and with no accepted samples the factor is 0 by the
`count === 0` branch). -/
theorem C6_ao_zero_when_unoccluded (powFn : ℚ → ℚ → ℚ) (samples : List Vec3)
    (normal : Vec3) (cosAngle maxDist intensity : ℚ) (octree : Octree)
    (origin : Vec3)
    (hmax : 0 < maxDist)
    (hpow : powFn 1 intensity = 1)
    (hmiss : ∀ s ∈ samples, cosAngle < dot3 s normal →
      Octree.distanceTo origin s maxDist
        ⟨origin.x + s.x * maxDist, origin.y + s.y * maxDist,
         origin.z + s.z * maxDist⟩ octree = none) :
    aoVertexFactor powFn samples normal cosAngle maxDist intensity octree origin
      = 0 := by
  simp only [aoVertexFactor]
  set accepted := samples.filter fun s => cosAngle < dot3 s normal with haccepted
  have hres : (accepted.map fun s =>
      Octree.distanceTo origin s maxDist
        ⟨origin.x + s.x * maxDist, origin.y + s.y * maxDist,
         origin.z + s.z * maxDist⟩ octree) =
      accepted.map fun _ => (none : Option ℚ) := by
    apply List.map_congr_left
    intro s hs
    rw [haccepted] at hs
    exact hmiss s (List.mem_of_mem_filter hs) (by simpa using List.of_mem_filter hs)
  rw [hres]
  rcases heq : accepted.length with _ | n
  · simp [List.length_eq_zero.mp heq]
  · have hlen : accepted.length ≠ 0 := by rw [heq]; exact Nat.succ_ne_zero n
    rw [if_neg (by simpa using hlen)]
    have htot : ((accepted.map fun _ => (none : Option ℚ)).map fun r =>
        r.getD maxDist).sum = (accepted.length : ℚ) * maxDist := by
      rw [List.map_map]
      have : (accepted.map ((fun r => r.getD maxDist) ∘ fun _ => (none : Option ℚ)))
          = accepted.map fun _ => maxDist := by
        apply List.map_congr_left
        intro s _
        rfl
      rw [this, List.map_const', List.sum_replicate, nsmul_eq_mul]
    rw [htot]
    simp only [List.length_map]
    have hone : (accepted.length : ℚ) * maxDist / maxDist / (accepted.length : ℚ) = 1 := by
      field_simp
    rw [hone]
    norm_num [hpow]

/-- Witness for C6: two samples above the acceptance cone and an empty-leaf
octree; the AO factor is 0. -/
theorem C6_witness :
    (0 : ℚ) < 2 ∧ (fun _ _ => (1 : ℚ)) 1 (1 : ℚ) = 1 ∧
    aoVertexFactor (fun _ _ => 1) [⟨0, 0, 1⟩, ⟨1, 0, 0⟩] ⟨0, 0, 1⟩ 0 2 1
      (.leaf ⟨-5, -5, -5, 5, 5, 5⟩ []) ⟨0, 0, 0⟩ = 0 :=
  ⟨by norm_num, rfl,
   C6_ao_zero_when_unoccluded (fun _ _ => 1) [⟨0, 0, 1⟩, ⟨1, 0, 0⟩] ⟨0, 0, 1⟩ 0 2 1
     (.leaf ⟨-5, -5, -5, 5, 5, 5⟩ []) ⟨0, 0, 0⟩ (by norm_num) rfl
     (by
       intro s hs _
       fin_cases hs <;>
         norm_num [Octree.distanceTo, hitsBox, distanceToTriangles,
           distanceToTrianglesGo, dot3, epsJS])⟩

/-! ### Non-manifold vertex handling in the normals calculator (claim C8) -/

/-- The `material.lighting` enum. -/
inductive Lighting where
  | flat
  | quad
  | smooth
  | both
  | sides
deriving DecidableEq, Repr

/-- The `vertex.faces` record: which of the six face directions touch the
vertex (set by `VertexMatrix.createVertex` as faces are created). -/
structure VertexF where
  fnx : Bool
  fpx : Bool
  fny : Bool
  fpy : Bool
  fnz : Bool
  fpz : Bool
deriving DecidableEq, Repr

/-- The opposing-pair count of `NormalsCalculator._isNonManifold`
(lines 9044-9056): one per axis whose both faces touch the vertex. -/
def nonManifoldPairCount (v : VertexF) : ℕ :=
  (if v.fpx && v.fnx then 1 else 0) +
  (if v.fpy && v.fny then 1 else 0) +
  (if v.fpz && v.fnz then 1 else 0)

/-- `vertex.nonManifold = count >= 2` as set by `_isNonManifold`. -/
def vertexNonManifold (v : VertexF) : Bool :=
  decide (2 ≤ nonManifoldPairCount v)

/-- The face-level result of `_isNonManifold`: some vertex of the quad is
non-manifold. -/
def faceNonManifold (vs : Fin 4 → VertexF) : Bool :=
  vertexNonManifold (vs 0) || vertexNonManifold (vs 1) ||
    vertexNonManifold (vs 2) || vertexNonManifold (vs 3)

/-- The non-manifold fix at the end of `NormalsCalculator.calculateNormals`
(lines 9023-9039): for smooth/both lighting, when the face has a
non-manifold vertex, each non-manifold vertex's normal is replaced by its
flat normal and each replacement is counted. -/
def fixNonManifoldNormals (lighting : Lighting) (vs : Fin 4 → VertexF)
    (normals flatNormals : Fin 4 → Vec3) : (Fin 4 → Vec3) × ℕ :=
  if (lighting = .smooth ∨ lighting = .both) ∧ faceNonManifold vs = true then
    (fun i => if vertexNonManifold (vs i) then flatNormals i else normals i,
     (Finset.univ.filter fun i : Fin 4 => vertexNonManifold (vs i) = true).card)
  else (normals, 0)

/-- **C8.**  A vertex is marked non-manifold exactly when both faces of an
opposing axis pair touch it for at least two of the three axis pairs; and
for smooth/both lighting, every normal of a non-manifold face vertex is
replaced by that vertex's flat normal, with the replacements counted. -/
theorem C8_nonManifold_marking_and_fix (v : VertexF) (lighting : Lighting)
    (vs : Fin 4 → VertexF) (normals flatNormals : Fin 4 → Vec3) :
    (vertexNonManifold v = true ↔
      ((v.fpx ∧ v.fnx) ∧ (v.fpy ∧ v.fny)) ∨
      ((v.fpx ∧ v.fnx) ∧ (v.fpz ∧ v.fnz)) ∨
      ((v.fpy ∧ v.fny) ∧ (v.fpz ∧ v.fnz))) ∧
    (lighting = .smooth ∨ lighting = .both →
      (∀ i, vertexNonManifold (vs i) = true →
        (fixNonManifoldNormals lighting vs normals flatNormals).1 i = flatNormals i) ∧
      (fixNonManifoldNormals lighting vs normals flatNormals).2 =
        (Finset.univ.filter fun i : Fin 4 => vertexNonManifold (vs i) = true).card) := by
  constructor
  · rcases v with ⟨a, b, c, d, e, f⟩
    revert a b c d e f
    decide
  · intro hl
    by_cases hface : faceNonManifold vs = true
    · rw [fixNonManifoldNormals, if_pos ⟨hl, hface⟩]
      exact ⟨fun i hi => by simp [hi], rfl⟩
    · have hall : ∀ i, vertexNonManifold (vs i) = false := by
        simp only [faceNonManifold, Bool.or_eq_true, not_or,
          Bool.not_eq_true] at hface
        intro i
        fin_cases i <;> simp_all
      rw [fixNonManifoldNormals, if_neg (fun hcon => hface hcon.2)]
      constructor
      · intro i hi
        rw [hall i] at hi
        cases hi
      · rw [Finset.card_eq_zero.mpr]
        apply Finset.filter_false_of_mem
        intro i _
        simp [hall i]

/-- The vertex-touch records of the witness face: vertex 0 is touched by all
six directions, the others by one. -/
def c8vs : Fin 4 → VertexF := fun i =>
  if i = 0 then ⟨true, true, true, true, true, true⟩
  else ⟨false, true, false, false, false, false⟩

/-- Witness for C8: on a smooth-lighting face whose vertex 0 is non-manifold,
the fix replaces exactly that vertex's normal and reports one replacement. -/
theorem C8_witness :
    (fixNonManifoldNormals .smooth c8vs (fun _ => ⟨0, 0, 1⟩)
      (fun _ => ⟨1, 0, 0⟩)).1 0 = ⟨1, 0, 0⟩ ∧
    (fixNonManifoldNormals .smooth c8vs (fun _ => ⟨0, 0, 1⟩)
      (fun _ => ⟨1, 0, 0⟩)).2 = 1 := by
  have h := (C8_nonManifold_marking_and_fix (c8vs 0) .smooth c8vs
    (fun _ => ⟨0, 0, 1⟩) (fun _ => ⟨1, 0, 0⟩)).2 (Or.inl rfl)
  refine ⟨h.1 0 (by decide), ?_⟩
  rw [h.2]
  decide

/-! ### Group hierarchy cycle detection (claim C9)

`VertexTransformer.getGroupHierarchy` (lines 8793-8810) walks the parent
chain, pushing each group onto `hierarchy` and throwing a ModelError when
the next parent's id already occurs in the accumulated chain.  The JS
recursion has no explicit bound; it is embedded with a fuel parameter, with
the top-level call given fuel `groups.length + 1`, which the cycle theorem
shows is never exhausted (the accumulated chain has pairwise distinct ids
drawn from the group list). -/

/-- A group: its id and (via the falsy `group.group` check, where id 0 would
read as absent) an optional parent id. -/
structure GroupG where
  id : ℕ
  parent : Option ℕ
deriving DecidableEq, Repr

/-- `groups.getById`. -/
def getById (groups : List GroupG) (i : ℕ) : Option GroupG :=
  groups.find? fun g => g.id == i

/-- The errors `getGroupHierarchy` can raise: the circular-nesting
ModelError (with the offending id path), an unresolvable parent id, or fuel
exhaustion of the embedding (shown unreachable for the top-level fuel). -/
inductive HierErr where
  | cycle (path : List ℕ)
  | unknownGroup (i : ℕ)
  | outOfFuel
deriving DecidableEq, Repr

/-- `VertexTransformer.getGroupHierarchy`, fuelled. -/
def getGroupHierarchy (groups : List GroupG) :
    ℕ → GroupG → List GroupG → Except HierErr (List GroupG)
  | 0, _, _ => .error .outOfFuel
  | fuel + 1, g, hier =>
    let hierarchy := hier ++ [g]
    match g.parent with
    | none => .ok hierarchy
    | some pid =>
      match getById groups pid with
      | none => .error (.unknownGroup pid)
      | some parent =>
        if hierarchy.any fun h => h.id == parent.id then
          .error (.cycle (hierarchy.map (·.id) ++ [parent.id]))
        else
          getGroupHierarchy groups fuel parent hierarchy

/-- The top-level call `getGroupHierarchy(group, groups)` with default
`hierarchy = []`. -/
def getGroupHierarchyTop (groups : List GroupG) (g : GroupG) :
    Except HierErr (List GroupG) :=
  getGroupHierarchy groups (groups.length + 1) g []

/-- One parent step: `groups.getById(group.group)`. -/
def parentOf (groups : List GroupG) (g : GroupG) : Option GroupG :=
  g.parent.bind (getById groups)

/-- `k`-fold parent iteration. -/
def parentIter (groups : List GroupG) : ℕ → GroupG → Option GroupG
  | 0, g => some g
  | k + 1, g => (parentOf groups g).bind (parentIter groups k)

/-- `parentIter` steps can be peeled from the back as well. -/
theorem parentIter_succ_back (groups : List GroupG) (k : ℕ) (g : GroupG) :
    parentIter groups (k + 1) g =
      (parentIter groups k g).bind (parentOf groups) := by
  induction k generalizing g with
  | zero =>
    simp [parentIter]
  | succ k ih =>
    show (parentOf groups g).bind (parentIter groups (k + 1)) = _
    rcases hg : parentOf groups g with _ | p
    · simp [parentIter, hg]
    · simp only [Option.some_bind]
      rw [ih p]
      simp [parentIter, hg]

/-- A group on a parent-link cycle has a parent, which is again on a cycle
of the same length. -/
theorem cyclic_step (groups : List GroupG) (g : GroupG)
    (hcyc : ∃ k, 0 < k ∧ parentIter groups k g = some g) :
    ∃ p, parentOf groups g = some p ∧
      ∃ k, 0 < k ∧ parentIter groups k p = some p := by
  obtain ⟨k, hk, hiter⟩ := hcyc
  rcases hp : parentOf groups g with _ | p
  · exfalso
    rcases k with _ | k
    · exact absurd hk (by simp)
    · rw [show parentIter groups (k + 1) g =
        (parentOf groups g).bind (parentIter groups k) from rfl, hp] at hiter
      exact absurd hiter (by simp)
  · refine ⟨p, rfl, k, hk, ?_⟩
    have h1 : parentIter groups (k + 1) g = parentIter groups k p := by
      rw [show parentIter groups (k + 1) g =
        (parentOf groups g).bind (parentIter groups k) from rfl, hp]
      simp
    have h2 : parentIter groups (k + 1) g = some p := by
      rw [parentIter_succ_back, hiter]
      simpa using hp
    rw [← h1, h2]

/-- The group found by `getById` belongs to the group list. -/
theorem getById_mem {groups : List GroupG} {i : ℕ} {p : GroupG}
    (h : getById groups i = some p) : p ∈ groups :=
  List.mem_of_find?_eq_some h

/-- Main induction for C9: from any state whose accumulated hierarchy has
pairwise distinct ids drawn from the group list, a cyclic current group
forces the circular-nesting error before the fuel runs out. -/
theorem getGroupHierarchy_cycle_aux (groups : List GroupG) :
    ∀ (fuel : ℕ) (g : GroupG) (hier : List GroupG),
      (hier.map (·.id)).Nodup →
      (∀ h ∈ hier, h.id ∈ groups.map (·.id)) →
      g.id ∉ hier.map (·.id) →
      g.id ∈ groups.map (·.id) →
      (∃ k, 0 < k ∧ parentIter groups k g = some g) →
      groups.length + 1 ≤ fuel + hier.length →
      ∃ path, getGroupHierarchy groups fuel g hier = .error (.cycle path) := by
  intro fuel
  induction fuel with
  | zero =>
    intro g hier h1 h2 h3 h4 _ hlen
    exfalso
    have hsub : (g.id :: hier.map (·.id)) ⊆ groups.map (·.id) := by
      intro a ha
      rcases List.mem_cons.mp ha with rfl | ha
      · exact h4
      · obtain ⟨h, hh, rfl⟩ := List.mem_map.mp ha
        exact h2 h hh
    have hnodup : (g.id :: hier.map (·.id)).Nodup := List.nodup_cons.mpr ⟨h3, h1⟩
    have hcard : (g.id :: hier.map (·.id)).length ≤ (groups.map (·.id)).length := by
      calc (g.id :: hier.map (·.id)).length
          = (g.id :: hier.map (·.id)).toFinset.card :=
            (List.toFinset_card_of_nodup hnodup).symm
        _ ≤ (groups.map (·.id)).toFinset.card :=
            Finset.card_le_card fun a ha =>
              List.mem_toFinset.mpr (hsub (List.mem_toFinset.mp ha))
        _ ≤ (groups.map (·.id)).length := (groups.map (·.id)).toFinset_card_le
    simp only [List.length_cons, List.length_map] at hcard
    omega
  | succ fuel ih =>
    intro g hier h1 h2 h3 h4 hcyc hlen
    obtain ⟨p, hp, hpcyc⟩ := cyclic_step groups g hcyc
    obtain ⟨pid, hpid, hget⟩ :
        ∃ pid, g.parent = some pid ∧ getById groups pid = some p := by
      rcases hgp : g.parent with _ | pid
      · rw [parentOf, hgp] at hp
        exact absurd hp (by simp)
      · rw [parentOf, hgp] at hp
        exact ⟨pid, rfl, by simpa using hp⟩
    simp only [getGroupHierarchy, hpid, hget]
    by_cases hin : (hier ++ [g]).any (fun h => h.id == p.id) = true
    · rw [if_pos hin]
      exact ⟨_, rfl⟩
    · rw [if_neg hin]
      have hpnotin : p.id ∉ (hier ++ [g]).map (·.id) := by
        intro hmem
        apply hin
        rw [List.any_eq_true]
        obtain ⟨h, hh, hid⟩ := List.mem_map.mp hmem
        exact ⟨h, hh, by simp [hid]⟩
      apply ih p (hier ++ [g])
      · rw [List.map_append]
        simp only [List.map_cons, List.map_nil]
        rw [List.nodup_append]
        refine ⟨h1, List.nodup_singleton _, ?_⟩
        intro a ha hb
        rcases List.mem_singleton.mp hb with rfl
        exact h3 ha
      · intro h hh
        rcases List.mem_append.mp hh with hh | hh
        · exact h2 h hh
        · rcases List.mem_singleton.mp hh with rfl
          exact h4
      · exact hpnotin
      · exact List.mem_map.mpr ⟨p, getById_mem hget, rfl⟩
      · exact hpcyc
      · simp only [List.length_append, List.length_cons, List.length_nil]
        omega

/-- **C9.**  For every group list and every group on a parent-link cycle
(the group is reachable as its own ancestor), `getGroupHierarchy` throws the
descriptive circular-nesting ModelError — the recursion never loops past
`groups.length` steps (the accumulated chain has pairwise distinct ids) and
never reaches transform composition. -/
theorem C9_cycle_throws (groups : List GroupG) (g : GroupG)
    (hmem : g ∈ groups)
    (hcyc : ∃ k, 0 < k ∧ parentIter groups k g = some g) :
    ∃ path, getGroupHierarchyTop groups g = .error (.cycle path) :=
  getGroupHierarchy_cycle_aux groups (groups.length + 1) g []
    (by simp) (by simp) (by simp) (List.mem_map.mpr ⟨g, hmem, rfl⟩) hcyc (by simp)

/-- Witness for C9: two mutually nested groups 1 ⇄ 2; the build aborts with
the circular-nesting error. -/
theorem C9_witness :
    ∃ path, getGroupHierarchyTop [⟨1, some 2⟩, ⟨2, some 1⟩] ⟨1, some 2⟩ =
      .error (.cycle path) :=
  C9_cycle_throws [⟨1, some 2⟩, ⟨2, some 1⟩] ⟨1, some 2⟩ (by simp)
    ⟨2, by norm_num, by decide⟩

/-! ### Face creation, normals and indexing for a single voxel (claim C3)

The pipeline stages exercised by a 1×1×1 model with default settings:
`FaceCreator._createFace` (visibility chain and planar rules),
`NormalsCalculator.calculateNormals` (per-face-vertex cross-product
normals; the tile/clamp perpendicular zeroing of lines 8905-8925 is
conditionally dead here since the default model has neither tile nor clamp
and is omitted), `SvoxMeshGenerator._generateVoxelFace` (two triangles per
face, flat-lighting averaged normals, per-vertex colours) and
`SvoxMeshGenerator._determineIndices` (deduplication of identical
position|normal|colour tuples).  Geometry is evaluated in voxel space; the
default model transform is a translation with uniform scale 1, which
changes neither tuple-distinctness counts nor normals. -/

/-- The six face names, in `SVOX._FACES` order. -/
inductive FaceName where
  | nx
  | px
  | ny
  | py
  | nz
  | pz
deriving DecidableEq, Repr

/-- The `material.side` enum. -/
inductive Side where
  | front
  | back
  | double
deriving DecidableEq, Repr

/-- A planar rule record (`skip`, `flatten`, `clamp`, `hide`), with `active`
precomputed as in `_setActive`. -/
structure PlanarJS where
  active : Bool
  x : Bool
  nx : Bool
  gx : Bool
  px : Bool
  lx : Bool
  y : Bool
  ny : Bool
  gy : Bool
  py : Bool
  ly : Bool
  z : Bool
  nz : Bool
  gz : Bool
  pz : Bool
  lz : Bool
deriving DecidableEq, Repr

/-- `planar?.active` with undefined treated as false. -/
def planarActive : Option PlanarJS → Bool
  | none => false
  | some p => p.active

/-- `planar?.x || planar?.y || planar?.z`. -/
def planarXYZ : Option PlanarJS → Bool
  | none => false
  | some p => p.x || p.y || p.z

/-- The material fields consulted by `_createFace`. -/
structure MaterialJS where
  opacity : ℚ
  side : Side
  transparent : Bool
  wireframe : Bool
  skip : Option PlanarJS
  flatten : Option PlanarJS
  clamp : Option PlanarJS
  hide : Option PlanarJS
  lighting : Lighting
deriving DecidableEq, Repr

/-- `FaceCreator._isFacePlanar` (lines 7947-7977): the material planar rule
(evaluated against the material bounds) wins over the model planar rule
(evaluated against the model voxel bounds); no rule means not planar. -/
def isFacePlanar (materialPlanar : Option PlanarJS) (materialBounds : BBoxI)
    (modelPlanar : Option PlanarJS) (modelBounds : BBoxI)
    (faceName : FaceName) (vx vy vz : ℤ) : Bool :=
  let pb : Option (PlanarJS × BBoxI) :=
    match materialPlanar with
    | some p => some (p, materialBounds)
    | none =>
      match modelPlanar with
      | some p => some (p, modelBounds)
      | none => none
  match pb with
  | none => false
  | some (p, b) =>
    match faceName with
    | .nx => p.x || (p.nx && decide (vx = b.minX)) || (p.gx && decide (vx ≠ b.minX))
    | .px => p.x || (p.px && decide (vx = b.maxX)) || (p.lx && decide (vx ≠ b.maxX))
    | .ny => p.y || (p.ny && decide (vy = b.minY)) || (p.gy && decide (vy ≠ b.minY))
    | .py => p.y || (p.py && decide (vy = b.maxY)) || (p.ly && decide (vy ≠ b.maxY))
    | .nz => p.z || (p.nz && decide (vz = b.minZ)) || (p.gz && decide (vz ≠ b.minZ))
    | .pz => p.z || (p.pz && decide (vz = b.maxZ)) || (p.lz && decide (vz ≠ b.maxZ))

/-- The visibility decision chain of `FaceCreator._createFace`
(lines 7884-7920), for a live voxel with a material.  The
`neighbor.material === voxel.material` object-identity test is modelled as
record equality. -/
def createFaceDecision (voxelMat : MaterialJS) (neighbor : Option MaterialJS) : Bool :=
  if voxelMat.opacity = 0 then false
  else
    match neighbor with
    | none => true       -- next to an empty voxel: create the face
    | some nb =>
      if nb = voxelMat then false
      else if voxelMat.side ≠ .back ∧ nb.side = .back then true
      else if ¬ planarActive voxelMat.skip = true ∧ planarActive nb.skip = true ∧
          planarXYZ nb.skip = true then true
      else if voxelMat.transparent ∧ nb.wireframe then true
      else if ¬ nb.transparent = true ∧ ¬ nb.wireframe = true then false
      else if ¬ voxelMat.transparent = true ∧ ¬ voxelMat.wireframe = true then true
      else false

/-- The default material: opacity 1, front side, not transparent, no
wireframe, no planar rules, flat lighting. -/
def defaultMaterial : MaterialJS :=
  ⟨1, .front, false, false, none, none, none, none, .flat⟩

/-- The voxel bounds of the single-voxel model: the cell (0,0,0). -/
def singleVoxelBounds : BBoxI := ⟨0, 0, 0, 0, 0, 0⟩

/-- Whether `_createFace` emits the face `f` of the single voxel (all six
neighbours are empty, and the planar skip rules are absent). -/
def singleVoxelFaceCreated (f : FaceName) : Bool :=
  createFaceDecision defaultMaterial none &&
    !(isFacePlanar defaultMaterial.skip singleVoxelBounds none singleVoxelBounds f 0 0 0)

/-- `SVOX._VERTICES`: the four corner offsets of each face, in winding
order. -/
def svoxVerticesTable (f : FaceName) (i : Fin 4) : Vec3 :=
  match f, i with
  | .nx, 0 => ⟨0, 0, 0⟩
  | .nx, 1 => ⟨0, 1, 0⟩
  | .nx, 2 => ⟨0, 1, 1⟩
  | .nx, 3 => ⟨0, 0, 1⟩
  | .px, 0 => ⟨1, 0, 1⟩
  | .px, 1 => ⟨1, 1, 1⟩
  | .px, 2 => ⟨1, 1, 0⟩
  | .px, 3 => ⟨1, 0, 0⟩
  | .ny, 0 => ⟨0, 0, 0⟩
  | .ny, 1 => ⟨0, 0, 1⟩
  | .ny, 2 => ⟨1, 0, 1⟩
  | .ny, 3 => ⟨1, 0, 0⟩
  | .py, 0 => ⟨0, 1, 1⟩
  | .py, 1 => ⟨0, 1, 0⟩
  | .py, 2 => ⟨1, 1, 0⟩
  | .py, 3 => ⟨1, 1, 1⟩
  | .nz, 0 => ⟨1, 0, 0⟩
  | .nz, 1 => ⟨1, 1, 0⟩
  | .nz, 2 => ⟨0, 1, 0⟩
  | .nz, 3 => ⟨0, 0, 0⟩
  | .pz, 0 => ⟨0, 0, 1⟩
  | .pz, 1 => ⟨0, 1, 1⟩
  | .pz, 2 => ⟨1, 1, 1⟩
  | .pz, 3 => ⟨1, 0, 1⟩

/-- `VertexMatrix.createVertex` coordinates: voxel position plus the
per-side vertex offset. -/
def vertexPosition (vx vy vz : ℤ) (f : FaceName) (i : Fin 4) : Vec3 :=
  ⟨(vx : ℚ) + (svoxVerticesTable f i).x,
   (vy : ℚ) + (svoxVerticesTable f i).y,
   (vz : ℚ) + (svoxVerticesTable f i).z⟩

/-- `Math.sqrt`, modelled exactly for rationals whose numerator and
denominator are perfect squares — the only inputs reached in this file
(see `sqrtQ_mul_self`). -/
def sqrtQ (q : ℚ) : ℚ :=
  (Nat.sqrt q.num.toNat : ℚ) / (Nat.sqrt q.den : ℚ)

/-- `model._normalize` (lines 1704-1714): divide by the length when it is
positive. -/
def normalizeQ (v : Vec3) : Vec3 :=
  let length := sqrtQ (v.x * v.x + v.y * v.y + v.z * v.z)
  if 0 < length then ⟨v.x / length, v.y / length, v.z / length⟩ else v

/-- `sqrtQ` is exact on squares of non-negative rationals. -/
theorem sqrtQ_mul_self (r : ℚ) (h : 0 ≤ r) : sqrtQ (r * r) = r := by
  rw [sqrtQ, Rat.mul_self_num, Rat.mul_self_den]
  have hrnum : 0 ≤ r.num := Rat.num_nonneg.mpr h
  obtain ⟨a, ha⟩ := Int.eq_ofNat_of_zero_le hrnum
  rw [ha]
  have h1 : ((a : ℤ) * (a : ℤ)).toNat = a * a := by
    rw [← Int.natCast_mul, Int.toNat_natCast]
  rw [h1, Nat.sqrt_eq, Nat.sqrt_eq]
  have h2 : ((a : ℚ)) = (r.num : ℚ) := by rw [ha]; push_cast; ring
  rw [h2, Rat.num_div_den]

/-- `normalizeQ` at a vector of known positive length. -/
theorem normalizeQ_eq_div (v : Vec3) (len : ℚ) (h0 : 0 < len)
    (hsq : v.x * v.x + v.y * v.y + v.z * v.z = len * len) :
    normalizeQ v = ⟨v.x / len, v.y / len, v.z / len⟩ := by
  simp only [normalizeQ, hsq, sqrtQ_mul_self len h0.le, if_pos h0]

/-- The per-face-vertex flat normal of `NormalsCalculator.calculateNormals`
(lines 8874-8935): cross product of `(previous vertex − vertex)` and
`(face midpoint − vertex)`, near-zero components cleaned to 0, then
normalised.  (The tile/clamp perpendicular zeroing is inactive for the
models considered here and omitted.) -/
def faceVertexNormal (verts : Fin 4 → Vec3) (v : Fin 4) : Vec3 :=
  let vmid : Vec3 :=
    ⟨((verts 0).x + (verts 1).x + (verts 2).x + (verts 3).x) / 4,
     ((verts 0).y + (verts 1).y + (verts 2).y + (verts 3).y) / 4,
     ((verts 0).z + (verts 1).z + (verts 2).z + (verts 3).z) / 4⟩
  let vertex := verts v
  let vprev := verts (v + 3)
  let e1 := Vec3.sub vprev vertex
  let e2 := Vec3.sub vmid vertex
  let normal := cross3 e1 e2
  let nx := if |normal.x| < 1 / 10000 then 0 else normal.x
  let ny := if |normal.y| < 1 / 10000 then 0 else normal.y
  let nz := if |normal.z| < 1 / 10000 then 0 else normal.z
  normalizeQ ⟨nx, ny, nz⟩

/-- The corner positions of face `f` of the voxel at (0,0,0). -/
def cubeFaceVerts (f : FaceName) : Fin 4 → Vec3 :=
  vertexPosition 0 0 0 f

/-- The outward unit normal of each cube face direction. -/
def outwardNormal : FaceName → Vec3
  | .nx => ⟨-1, 0, 0⟩
  | .px => ⟨1, 0, 0⟩
  | .ny => ⟨0, -1, 0⟩
  | .py => ⟨0, 1, 0⟩
  | .nz => ⟨0, 0, -1⟩
  | .pz => ⟨0, 0, 1⟩

/-- Sum of three vectors (`norm2+norm1+norm0` in `_generateVoxelFace`). -/
def vecAdd3 (a b c : Vec3) : Vec3 :=
  ⟨a.x + b.x + c.x, a.y + b.y + c.y, a.z + b.z + c.z⟩

/-- One mesh buffer entry: position, normal, colour — the fields used in
the `_determineIndices` id string for this model (no uvs, no data). -/
abbrev MeshEntry : Type := Vec3 × Vec3 × (ℚ × ℚ × ℚ)

/-- `SvoxMeshGenerator._generateVoxelFace` (lines 10922-11005) for a
front-side material with flat lighting: two triangles `[v2,v1,v0]` and
`[v0,v3,v2]`, each with the normalised average of its three corner flat
normals, and the voxel colour at every corner. -/
def faceMeshEntries (verts flatNormals : Fin 4 → Vec3) (col : ℚ × ℚ × ℚ) :
    List MeshEntry :=
  let normFace1 := normalizeQ (vecAdd3 (flatNormals 2) (flatNormals 1) (flatNormals 0))
  let normFace2 := normalizeQ (vecAdd3 (flatNormals 0) (flatNormals 3) (flatNormals 2))
  [(verts 2, normFace1, col), (verts 1, normFace1, col), (verts 0, normFace1, col),
   (verts 0, normFace2, col), (verts 3, normFace2, col), (verts 2, normFace2, col)]

/-- `SVOX._FACES` order. -/
def svoxFaces : List FaceName := [.nx, .px, .ny, .py, .nz, .pz]

/-- All mesh buffer entries of the single-voxel model (colour #FFF). -/
def singleVoxelEntries : List MeshEntry :=
  (svoxFaces.map fun f =>
    faceMeshEntries (cubeFaceVerts f) (faceVertexNormal (cubeFaceVerts f)) (1, 1, 1)).join

/-- `SvoxMeshGenerator._determineIndices` (lines 10687-10718): the number of
distinct id tuples, each new tuple receiving the next index. -/
def determineIndicesCount {α : Type} [DecidableEq α] (entries : List α) : ℕ :=
  (entries.foldl (fun seen e => if e ∈ seen then seen else e :: seen) []).length

/-- The 36 mesh entries of the single voxel, written out. -/
def cubeMeshLiteral : List (Vec3 × Vec3 × (ℚ × ℚ × ℚ)) :=
  [(⟨0, 1, 1⟩, ⟨-1, 0, 0⟩, (1, 1, 1)),
   (⟨0, 1, 0⟩, ⟨-1, 0, 0⟩, (1, 1, 1)),
   (⟨0, 0, 0⟩, ⟨-1, 0, 0⟩, (1, 1, 1)),
   (⟨0, 0, 0⟩, ⟨-1, 0, 0⟩, (1, 1, 1)),
   (⟨0, 0, 1⟩, ⟨-1, 0, 0⟩, (1, 1, 1)),
   (⟨0, 1, 1⟩, ⟨-1, 0, 0⟩, (1, 1, 1)),
   (⟨1, 1, 0⟩, ⟨1, 0, 0⟩, (1, 1, 1)),
   (⟨1, 1, 1⟩, ⟨1, 0, 0⟩, (1, 1, 1)),
   (⟨1, 0, 1⟩, ⟨1, 0, 0⟩, (1, 1, 1)),
   (⟨1, 0, 1⟩, ⟨1, 0, 0⟩, (1, 1, 1)),
   (⟨1, 0, 0⟩, ⟨1, 0, 0⟩, (1, 1, 1)),
   (⟨1, 1, 0⟩, ⟨1, 0, 0⟩, (1, 1, 1)),
   (⟨1, 0, 1⟩, ⟨0, -1, 0⟩, (1, 1, 1)),
   (⟨0, 0, 1⟩, ⟨0, -1, 0⟩, (1, 1, 1)),
   (⟨0, 0, 0⟩, ⟨0, -1, 0⟩, (1, 1, 1)),
   (⟨0, 0, 0⟩, ⟨0, -1, 0⟩, (1, 1, 1)),
   (⟨1, 0, 0⟩, ⟨0, -1, 0⟩, (1, 1, 1)),
   (⟨1, 0, 1⟩, ⟨0, -1, 0⟩, (1, 1, 1)),
   (⟨1, 1, 0⟩, ⟨0, 1, 0⟩, (1, 1, 1)),
   (⟨0, 1, 0⟩, ⟨0, 1, 0⟩, (1, 1, 1)),
   (⟨0, 1, 1⟩, ⟨0, 1, 0⟩, (1, 1, 1)),
   (⟨0, 1, 1⟩, ⟨0, 1, 0⟩, (1, 1, 1)),
   (⟨1, 1, 1⟩, ⟨0, 1, 0⟩, (1, 1, 1)),
   (⟨1, 1, 0⟩, ⟨0, 1, 0⟩, (1, 1, 1)),
   (⟨0, 1, 0⟩, ⟨0, 0, -1⟩, (1, 1, 1)),
   (⟨1, 1, 0⟩, ⟨0, 0, -1⟩, (1, 1, 1)),
   (⟨1, 0, 0⟩, ⟨0, 0, -1⟩, (1, 1, 1)),
   (⟨1, 0, 0⟩, ⟨0, 0, -1⟩, (1, 1, 1)),
   (⟨0, 0, 0⟩, ⟨0, 0, -1⟩, (1, 1, 1)),
   (⟨0, 1, 0⟩, ⟨0, 0, -1⟩, (1, 1, 1)),
   (⟨1, 1, 1⟩, ⟨0, 0, 1⟩, (1, 1, 1)),
   (⟨0, 1, 1⟩, ⟨0, 0, 1⟩, (1, 1, 1)),
   (⟨0, 0, 1⟩, ⟨0, 0, 1⟩, (1, 1, 1)),
   (⟨0, 0, 1⟩, ⟨0, 0, 1⟩, (1, 1, 1)),
   (⟨1, 0, 1⟩, ⟨0, 0, 1⟩, (1, 1, 1)),
   (⟨1, 1, 1⟩, ⟨0, 0, 1⟩, (1, 1, 1))]


theorem cubeFlatNormal : ∀ (f : FaceName) (v : Fin 4),
    faceVertexNormal (cubeFaceVerts f) v = outwardNormal f := by
  have hf0 : ∀ (h : (0:ℕ) < 4), ((⟨0, h⟩ : Fin 4) + 3) = 3 := fun h => rfl
  have hf1 : ∀ (h : (1:ℕ) < 4), ((⟨1, h⟩ : Fin 4) + 3) = 0 := fun h => rfl
  have hf2 : ∀ (h : (2:ℕ) < 4), ((⟨2, h⟩ : Fin 4) + 3) = 1 := fun h => rfl
  have hf3 : ∀ (h : (3:ℕ) < 4), ((⟨3, h⟩ : Fin 4) + 3) = 2 := fun h => rfl
  intro f v
  cases f <;> fin_cases v <;>
    (norm_num [faceVertexNormal, cubeFaceVerts, vertexPosition, svoxVerticesTable,
       cross3, Vec3.sub, abs_of_nonneg, hf0, hf1, hf2, hf3]
     rw [normalizeQ_eq_div _ (1/2) (by norm_num) (by norm_num [abs_of_nonneg])]
     norm_num [outwardNormal])

theorem cubeSumNormal : ∀ f : FaceName,
    normalizeQ (vecAdd3 (outwardNormal f) (outwardNormal f) (outwardNormal f)) =
      outwardNormal f := by
  intro f
  cases f <;>
    (norm_num [vecAdd3, outwardNormal]
     rw [normalizeQ_eq_div _ 3 (by norm_num) (by norm_num)]
     norm_num)

theorem singleVoxelEntries_eq : singleVoxelEntries = cubeMeshLiteral := by
  simp only [singleVoxelEntries, svoxFaces, List.map_cons, List.map_nil,
    faceMeshEntries, cubeFlatNormal, cubeSumNormal, List.join]
  norm_num [cubeFaceVerts, vertexPosition, svoxVerticesTable, outwardNormal,
    cubeMeshLiteral]


/-- **C3 counterexample.**  The single default voxel produces 36 mesh buffer
entries (6 entries per face, 2 triangles sharing 2 corners), and the final
indexing step deduplicates them to 24 unique indexed vertices, not 8: the
default lighting is flat, so the 3 faces meeting at each cube corner carry
3 different normals and the position|normal|colour id strings differ. -/
theorem C3_counterexample :
    determineIndicesCount singleVoxelEntries = 24 ∧
    determineIndicesCount singleVoxelEntries ≠ 8 := by
  rw [singleVoxelEntries_eq]
  constructor <;> decide

/-- **C3 (amended).**  A 1×1×1 model with default settings produces exactly
6 faces (one per side, each side emitted); every face vertex normal is the
outward unit normal of its axis; the 36 emitted vertex tuples deduplicate
to 24 unique indexed vertices; and the positions alone deduplicate to the
8 cube corners. -/
theorem C3_amended_single_voxel_mesh :
    (svoxFaces.map singleVoxelFaceCreated) = [true, true, true, true, true, true] ∧
    (∀ (f : FaceName) (v : Fin 4),
      faceVertexNormal (cubeFaceVerts f) v = outwardNormal f) ∧
    singleVoxelEntries.length = 36 ∧
    determineIndicesCount singleVoxelEntries = 24 ∧
    determineIndicesCount (singleVoxelEntries.map fun e => e.1) = 8 := by
  refine ⟨by decide, cubeFlatNormal, ?_, ?_, ?_⟩ <;> rw [singleVoxelEntries_eq]
  · decide
  · decide
  · decide


/-! ### Vertex linking (claim C7)

`VertexLinker.linkVertices` (lines 7979-8017) and
`VertexLinker._fixClampedLinks` (lines 8019-8064).  Vertices are identified
by natural-number ids; the mutable per-vertex fields (`links`,
`nrOfClampedLinks`, `fullyClamped`) form the `LinkState`.  Faces are
processed in voxel/face iteration order as a list. -/

/-- The mutable per-vertex linking state. -/
structure LinkState where
  links : ℕ → List ℕ
  nrOfClampedLinks : ℕ → ℕ
  fullyClamped : ℕ → Bool

/-- A face as seen by the vertex linker: its 4 vertex ids (in winding
order) and its clamped flag. -/
structure FaceL where
  verts : Fin 4 → ℕ
  clamped : Bool

/-- The initial state: vertices are created with `links: []`,
`nrOfClampedLinks: 0` and no `fullyClamped` mark. -/
def initialLinkState : LinkState := ⟨fun _ => [], fun _ => 0, fun _ => false⟩

/-- `if (vertexFrom.links.indexOf(vertexTo) === -1) vertexFrom.links.push(vertexTo)`. -/
def addLink (s : LinkState) (a b : ℕ) : LinkState :=
  if b ∈ s.links a then s
  else { s with links := Function.update s.links a (s.links a ++ [b]) }

/-- The clamped-face self-link: push the vertex itself (if absent) and count
it in `nrOfClampedLinks`. -/
def addSelfLink (s : LinkState) (a : ℕ) : LinkState :=
  if a ∈ s.links a then s
  else { s with
    links := Function.update s.links a (s.links a ++ [a]),
    nrOfClampedLinks := Function.update s.nrOfClampedLinks a (s.nrOfClampedLinks a + 1) }

/-- One loop iteration of the non-clamped case: link `a` to `b` and back. -/
def linkPair (s : LinkState) (a b : ℕ) : LinkState :=
  addLink (addLink s a b) b a

/-- Processing one face in `linkVertices`: self-links for a clamped face,
bidirectional cyclic-neighbour links otherwise. -/
def linkFace (s : LinkState) (f : FaceL) : LinkState :=
  if f.clamped then
    addSelfLink (addSelfLink (addSelfLink (addSelfLink s (f.verts 0)) (f.verts 1))
      (f.verts 2)) (f.verts 3)
  else
    linkPair (linkPair (linkPair (linkPair s (f.verts 0) (f.verts 1))
      (f.verts 1) (f.verts 2)) (f.verts 2) (f.verts 3)) (f.verts 3) (f.verts 0)

/-- The first pass of `linkVertices` over all faces. -/
def linkVerticesPass (faces : List FaceL) (s : LinkState) : LinkState :=
  faces.foldl linkFace s

/-- One vertex of the first `_fixClampedLinks` loop:
`vertex.fullyClamped = vertex.fullyClamped || (nrOfClampedLinks === links.length)`,
then clear the links of a fully clamped vertex. -/
def markVertex (s : LinkState) (a : ℕ) : LinkState :=
  let fc := s.fullyClamped a || decide (s.nrOfClampedLinks a = (s.links a).length)
  { s with
    fullyClamped := Function.update s.fullyClamped a fc,
    links := if fc then Function.update s.links a [] else s.links }

/-- The first `_fixClampedLinks` loop for one face (clamped faces only). -/
def markFace (s : LinkState) (f : FaceL) : LinkState :=
  if f.clamped then
    markVertex (markVertex (markVertex (markVertex s (f.verts 0)) (f.verts 1))
      (f.verts 2)) (f.verts 3)
  else s

/-- One direction of the second `_fixClampedLinks` loop:
`if (vertexFrom.fullyClamped && indexOf === -1) push`. -/
def addIfFC (s : LinkState) (a b : ℕ) : LinkState :=
  if s.fullyClamped a then addLink s a b else s

/-- The second `_fixClampedLinks` loop for one face (clamped faces only):
for each cyclic pair, add the neighbour links to fully clamped endpoints. -/
def fixAddFace (s : LinkState) (f : FaceL) : LinkState :=
  if f.clamped then
    addIfFC (addIfFC (addIfFC (addIfFC (addIfFC (addIfFC (addIfFC (addIfFC s
      (f.verts 0) (f.verts 1)) (f.verts 1) (f.verts 0))
      (f.verts 1) (f.verts 2)) (f.verts 2) (f.verts 1))
      (f.verts 2) (f.verts 3)) (f.verts 3) (f.verts 2))
      (f.verts 3) (f.verts 0)) (f.verts 0) (f.verts 3)
  else s

/-- `VertexLinker._fixClampedLinks`: the marking pass, then the re-adding
pass. -/
def fixClampedLinks (faces : List FaceL) (s : LinkState) : LinkState :=
  faces.foldl fixAddFace (faces.foldl markFace s)

/-- `VertexLinker.linkVertices`: the linking pass then the clamped fix. -/
def linkVertices (faces : List FaceL) : LinkState :=
  fixClampedLinks faces (linkVerticesPass faces initialLinkState)

/-- `b` is a cyclic neighbour of `a` in the quad `f` (never the diagonal),
in either direction of each of the four quad edges. -/
def cyclAdj (f : FaceL) (a b : ℕ) : Prop :=
  (a = f.verts 0 ∧ b = f.verts 1) ∨ (a = f.verts 1 ∧ b = f.verts 0) ∨
  (a = f.verts 1 ∧ b = f.verts 2) ∨ (a = f.verts 2 ∧ b = f.verts 1) ∨
  (a = f.verts 2 ∧ b = f.verts 3) ∨ (a = f.verts 3 ∧ b = f.verts 2) ∨
  (a = f.verts 3 ∧ b = f.verts 0) ∨ (a = f.verts 0 ∧ b = f.verts 3)

instance (f : FaceL) (a b : ℕ) : Decidable (cyclAdj f a b) := by
  unfold cyclAdj
  infer_instance

/-- `a` is one of the 4 vertices of `f`. -/
def touches (f : FaceL) (a : ℕ) : Prop :=
  a = f.verts 0 ∨ a = f.verts 1 ∨ a = f.verts 2 ∨ a = f.verts 3

instance (f : FaceL) (a : ℕ) : Decidable (touches f a) := by
  unfold touches
  infer_instance

theorem addLink_links_mem (s : LinkState) (a b c d : ℕ) :
    d ∈ (addLink s a b).links c ↔ d ∈ s.links c ∨ (c = a ∧ d = b) := by
  unfold addLink
  split
  · rename_i hmem
    constructor
    · exact Or.inl
    · rintro (h | ⟨rfl, rfl⟩)
      · exact h
      · exact hmem
  · simp only [Function.update_apply]
    rcases eq_or_ne c a with rfl | hca
    · simp
    · simp [hca]

theorem addLink_nr (s : LinkState) (a b c : ℕ) :
    (addLink s a b).nrOfClampedLinks c = s.nrOfClampedLinks c := by
  unfold addLink
  split <;> rfl

theorem addLink_fc (s : LinkState) (a b c : ℕ) :
    (addLink s a b).fullyClamped c = s.fullyClamped c := by
  unfold addLink
  split <;> rfl

theorem addSelfLink_links_mem (s : LinkState) (a c d : ℕ) :
    d ∈ (addSelfLink s a).links c ↔ d ∈ s.links c ∨ (c = a ∧ d = a) := by
  unfold addSelfLink
  split
  · rename_i hmem
    constructor
    · exact Or.inl
    · rintro (h | ⟨rfl, rfl⟩)
      · exact h
      · exact hmem
  · simp only [Function.update_apply]
    rcases eq_or_ne c a with rfl | hca
    · simp
    · simp [hca]

theorem addSelfLink_fc (s : LinkState) (a c : ℕ) :
    (addSelfLink s a).fullyClamped c = s.fullyClamped c := by
  unfold addSelfLink
  split <;> rfl

theorem addIfFC_links_mem (s : LinkState) (x y c d : ℕ) :
    d ∈ (addIfFC s x y).links c ↔
      d ∈ s.links c ∨ (s.fullyClamped x = true ∧ c = x ∧ d = y) := by
  unfold addIfFC
  split
  · rename_i hfc
    rw [addLink_links_mem]
    simp [hfc]
  · rename_i hfc
    simp [hfc]

theorem addIfFC_fc (s : LinkState) (x y c : ℕ) :
    (addIfFC s x y).fullyClamped c = s.fullyClamped c := by
  unfold addIfFC
  split
  · rw [addLink_fc]
  · rfl



/-- Membership effect of processing one face in the first pass. -/
theorem linkFace_links_mem (s : LinkState) (f : FaceL) (a b : ℕ) :
    b ∈ (linkFace s f).links a ↔ b ∈ s.links a ∨
      (f.clamped = false ∧ cyclAdj f a b) ∨
      (f.clamped = true ∧ b = a ∧ touches f a) := by
  unfold linkFace linkPair
  rcases hcl : f.clamped
  · simp only [Bool.false_eq_true, if_false, addLink_links_mem, cyclAdj, touches,
      false_and, and_false, or_false, false_or, true_and, and_true, or_assoc]
  · simp only [if_true, addSelfLink_links_mem, Bool.true_eq_false, false_and,
      and_false, or_false, false_or, true_and, and_true, or_assoc, touches]
    constructor
    · rintro (h | ⟨ha, hb⟩ | ⟨ha, hb⟩ | ⟨ha, hb⟩ | ⟨ha, hb⟩)
      · exact Or.inl h
      · exact Or.inr ⟨hb.trans ha.symm, Or.inl ha⟩
      · exact Or.inr ⟨hb.trans ha.symm, Or.inr (Or.inl ha)⟩
      · exact Or.inr ⟨hb.trans ha.symm, Or.inr (Or.inr (Or.inl ha))⟩
      · exact Or.inr ⟨hb.trans ha.symm, Or.inr (Or.inr (Or.inr ha))⟩
    · rintro (h | ⟨rfl, (ha | ha | ha | ha)⟩)
      · exact Or.inl h
      · exact Or.inr (Or.inl ⟨ha, ha⟩)
      · exact Or.inr (Or.inr (Or.inl ⟨ha, ha⟩))
      · exact Or.inr (Or.inr (Or.inr (Or.inl ⟨ha, ha⟩)))
      · exact Or.inr (Or.inr (Or.inr (Or.inr ⟨ha, ha⟩)))

/-- The links after the first pass of `linkVertices`: exactly the
bidirectional cyclic-neighbour links of the non-clamped faces plus the
self-links of the clamped faces. -/
theorem linkVerticesPass_links_mem (faces : List FaceL) :
    ∀ (s : LinkState) (a b : ℕ),
      b ∈ (linkVerticesPass faces s).links a ↔ b ∈ s.links a ∨
        (∃ f ∈ faces, f.clamped = false ∧ cyclAdj f a b) ∨
        (b = a ∧ ∃ f ∈ faces, f.clamped = true ∧ touches f a) := by
  induction faces with
  | nil => intro s a b; simp [linkVerticesPass]
  | cons f fs ih =>
    intro s a b
    rw [show linkVerticesPass (f :: fs) s = linkVerticesPass fs (linkFace s f) from rfl,
      ih, linkFace_links_mem]
    simp only [List.mem_cons]
    constructor
    · rintro ((h | h | h) | h | h)
      · exact Or.inl h
      · exact Or.inr (Or.inl ⟨f, Or.inl rfl, h⟩)
      · exact Or.inr (Or.inr ⟨h.2.1, f, Or.inl rfl, h.1, h.2.2⟩)
      · obtain ⟨g, hg, hgc, hga⟩ := h
        exact Or.inr (Or.inl ⟨g, Or.inr hg, hgc, hga⟩)
      · obtain ⟨hba, g, hg, hgc, hga⟩ := h
        exact Or.inr (Or.inr ⟨hba, g, Or.inr hg, hgc, hga⟩)
    · rintro (h | h | h)
      · exact Or.inl (Or.inl h)
      · obtain ⟨g, hg | hg, hgc, hga⟩ := h
        · subst hg
          exact Or.inl (Or.inr (Or.inl ⟨hgc, hga⟩))
        · exact Or.inr (Or.inl ⟨g, hg, hgc, hga⟩)
      · obtain ⟨hba, g, hg | hg, hgc, hga⟩ := h
        · subst hg
          exact Or.inl (Or.inr (Or.inr ⟨hgc, hba, hga⟩))
        · exact Or.inr (Or.inr ⟨hba, g, hg, hgc, hga⟩)

theorem addLink_nodup (s : LinkState) (a b : ℕ)
    (h : ∀ c, (s.links c).Nodup) : ∀ c, ((addLink s a b).links c).Nodup := by
  intro c
  unfold addLink
  split
  · exact h c
  · rename_i hmem
    dsimp only
    rcases eq_or_ne c a with rfl | hca
    · rw [Function.update_same, List.nodup_append]
      exact ⟨h c, List.nodup_singleton b, by simpa using fun hb => hmem hb⟩
    · rw [Function.update_noteq hca]
      exact h c

theorem addSelfLink_nodup (s : LinkState) (a : ℕ)
    (h : ∀ c, (s.links c).Nodup) : ∀ c, ((addSelfLink s a).links c).Nodup := by
  intro c
  unfold addSelfLink
  split
  · exact h c
  · rename_i hmem
    dsimp only
    rcases eq_or_ne c a with rfl | hca
    · rw [Function.update_same, List.nodup_append]
      exact ⟨h _, List.nodup_singleton _, by simpa using fun hb => hmem hb⟩
    · rw [Function.update_noteq hca]
      exact h c

theorem linkFace_nodup (s : LinkState) (f : FaceL)
    (h : ∀ c, (s.links c).Nodup) : ∀ c, ((linkFace s f).links c).Nodup := by
  unfold linkFace linkPair
  split
  · exact addSelfLink_nodup _ _ (addSelfLink_nodup _ _
      (addSelfLink_nodup _ _ (addSelfLink_nodup _ _ h)))
  · exact addLink_nodup _ _ _ (addLink_nodup _ _ _ (addLink_nodup _ _ _
      (addLink_nodup _ _ _ (addLink_nodup _ _ _ (addLink_nodup _ _ _
        (addLink_nodup _ _ _ (addLink_nodup _ _ _ h)))))))

theorem linkVerticesPass_nodup (faces : List FaceL) :
    ∀ (s : LinkState), (∀ c, (s.links c).Nodup) →
      ∀ c, ((linkVerticesPass faces s).links c).Nodup := by
  induction faces with
  | nil => intro s h; exact h
  | cons f fs ih =>
    intro s h
    exact ih (linkFace s f) (linkFace_nodup s f h)


/-- Some clamped face of the list touches `a`. -/
def touchesClamped (faces : List FaceL) (a : ℕ) : Prop :=
  ∃ f ∈ faces, f.clamped = true ∧ touches f a

/-- Adjacent corners of a quad are distinct vertices (true of every face
built by the face creator: the four corner grid positions differ). -/
def adjacentCornersDistinct (f : FaceL) : Prop :=
  f.verts 0 ≠ f.verts 1 ∧ f.verts 1 ≠ f.verts 2 ∧
    f.verts 2 ≠ f.verts 3 ∧ f.verts 3 ≠ f.verts 0

/-- Vertex `a` has no self-link and no clamped-link count. -/
def selfFree (s : LinkState) (a : ℕ) : Prop :=
  s.nrOfClampedLinks a = 0 ∧ a ∉ s.links a

/-- Vertex `a` has its self-link, counted once. -/
def selfLinked (s : LinkState) (a : ℕ) : Prop :=
  s.nrOfClampedLinks a = 1 ∧ a ∈ s.links a

theorem addLink_eq_of_mem {s : LinkState} {a b : ℕ} (h : b ∈ s.links a) :
    addLink s a b = s := if_pos h

theorem addSelfLink_eq_of_mem {s : LinkState} {a : ℕ} (h : a ∈ s.links a) :
    addSelfLink s a = s := if_pos h

theorem addLink_selfFree {s : LinkState} {x y a : ℕ} (h : selfFree s a)
    (hxy : x = y → a ≠ x) : selfFree (addLink s x y) a := by
  refine ⟨(addLink_nr s x y a).trans h.1, ?_⟩
  rw [addLink_links_mem]
  rintro (hmem | ⟨rfl, rfl⟩)
  · exact h.2 hmem
  · exact hxy rfl rfl

theorem addSelfLink_selfFree {s : LinkState} {x a : ℕ} (h : selfFree s a)
    (hax : a ≠ x) : selfFree (addSelfLink s x) a := by
  constructor
  · unfold addSelfLink
    split
    · exact h.1
    · dsimp only
      rw [Function.update_noteq hax]
      exact h.1
  · rw [addSelfLink_links_mem]
    rintro (hmem | ⟨he, _⟩)
    · exact h.2 hmem
    · exact hax he

theorem addSelfLink_hit {s : LinkState} {a : ℕ} (h : selfFree s a) :
    selfLinked (addSelfLink s a) a := by
  unfold addSelfLink
  rw [if_neg h.2]
  constructor
  · dsimp only
    rw [Function.update_same, h.1]
  · dsimp only
    rw [Function.update_same]
    simp

theorem addSelfLink_selfLinked {s : LinkState} {x a : ℕ} (h : selfLinked s a) :
    selfLinked (addSelfLink s x) a := by
  rcases eq_or_ne a x with rfl | hax
  · rw [addSelfLink_eq_of_mem h.2]
    exact h
  · constructor
    · unfold addSelfLink
      split
      · exact h.1
      · dsimp only
        rw [Function.update_noteq hax]
        exact h.1
    · rw [addSelfLink_links_mem]
      exact Or.inl h.2

theorem addLink_selfLinked {s : LinkState} {x y a : ℕ} (h : selfLinked s a) :
    selfLinked (addLink s x y) a :=
  ⟨(addLink_nr s x y a).trans h.1, by rw [addLink_links_mem]; exact Or.inl h.2⟩

/-- Effect of one face of the first pass on the self-link state of a
vertex: a non-degenerate non-clamped face leaves it untouched, a clamped
face self-links exactly its own vertices, and an existing self-link is
kept. -/
theorem linkFace_selfState (s : LinkState) (f : FaceL) (a : ℕ) :
    (selfFree s a → f.clamped = false → adjacentCornersDistinct f →
      selfFree (linkFace s f) a) ∧
    (selfFree s a → f.clamped = true → touches f a →
      selfLinked (linkFace s f) a) ∧
    (selfFree s a → f.clamped = true → ¬ touches f a →
      selfFree (linkFace s f) a) ∧
    (selfLinked s a → selfLinked (linkFace s f) a) := by
  refine ⟨?_, ?_, ?_, ?_⟩
  · intro h hcl hdist
    unfold linkFace linkPair
    rw [hcl]
    simp only [Bool.false_eq_true, if_false]
    obtain ⟨d01, d12, d23, d30⟩ := hdist
    refine addLink_selfFree (addLink_selfFree (addLink_selfFree (addLink_selfFree
      (addLink_selfFree (addLink_selfFree (addLink_selfFree (addLink_selfFree h
        ?_) ?_) ?_) ?_) ?_) ?_) ?_) ?_
    · exact fun he _ => absurd he d01
    · exact fun he _ => absurd he.symm d01
    · exact fun he _ => absurd he d12
    · exact fun he _ => absurd he.symm d12
    · exact fun he _ => absurd he d23
    · exact fun he _ => absurd he.symm d23
    · exact fun he _ => absurd he d30
    · exact fun he _ => absurd he.symm d30
  · intro h hcl htouch
    unfold linkFace
    rw [hcl]
    simp only [if_true]
    rcases htouch with h0 | h1 | h2 | h3
    · subst h0
      exact addSelfLink_selfLinked (addSelfLink_selfLinked
        (addSelfLink_selfLinked (addSelfLink_hit h)))
    · rcases eq_or_ne a (f.verts 0) with he | hne
      · rw [← he]
        exact addSelfLink_selfLinked (addSelfLink_selfLinked
          (addSelfLink_selfLinked (addSelfLink_hit h)))
      · subst h1
        exact addSelfLink_selfLinked (addSelfLink_selfLinked
          (addSelfLink_hit (addSelfLink_selfFree h hne)))
    · rcases eq_or_ne a (f.verts 0) with he0 | hne0
      · rw [← he0]
        exact addSelfLink_selfLinked (addSelfLink_selfLinked
          (addSelfLink_selfLinked (addSelfLink_hit h)))
      · rcases eq_or_ne a (f.verts 1) with he1 | hne1
        · rw [← he1]
          exact addSelfLink_selfLinked (addSelfLink_selfLinked
            (addSelfLink_hit (addSelfLink_selfFree h hne0)))
        · subst h2
          exact addSelfLink_selfLinked (addSelfLink_hit
            (addSelfLink_selfFree (addSelfLink_selfFree h hne0) hne1))
    · rcases eq_or_ne a (f.verts 0) with he0 | hne0
      · rw [← he0]
        exact addSelfLink_selfLinked (addSelfLink_selfLinked
          (addSelfLink_selfLinked (addSelfLink_hit h)))
      · rcases eq_or_ne a (f.verts 1) with he1 | hne1
        · rw [← he1]
          exact addSelfLink_selfLinked (addSelfLink_selfLinked
            (addSelfLink_hit (addSelfLink_selfFree h hne0)))
        · rcases eq_or_ne a (f.verts 2) with he2 | hne2
          · rw [← he2]
            exact addSelfLink_selfLinked (addSelfLink_hit
              (addSelfLink_selfFree (addSelfLink_selfFree h hne0) hne1))
          · subst h3
            exact addSelfLink_hit (addSelfLink_selfFree (addSelfLink_selfFree
              (addSelfLink_selfFree h hne0) hne1) hne2)
  · intro h hcl htouch
    unfold linkFace
    rw [hcl]
    simp only [if_true]
    rw [touches, not_or, not_or, not_or] at htouch
    obtain ⟨h0, h1, h2, h3⟩ := htouch
    exact addSelfLink_selfFree (addSelfLink_selfFree (addSelfLink_selfFree
      (addSelfLink_selfFree h h0) h1) h2) h3
  · intro h
    unfold linkFace linkPair
    split
    · exact addSelfLink_selfLinked (addSelfLink_selfLinked
        (addSelfLink_selfLinked (addSelfLink_selfLinked h)))
    · exact addLink_selfLinked (addLink_selfLinked (addLink_selfLinked
        (addLink_selfLinked (addLink_selfLinked (addLink_selfLinked
          (addLink_selfLinked (addLink_selfLinked h)))))))

theorem linkVerticesPass_selfLinked (faces : List FaceL) :
    ∀ (s : LinkState) (a : ℕ), selfLinked s a →
      selfLinked (linkVerticesPass faces s) a := by
  induction faces with
  | nil => exact fun s a h => h
  | cons f fs ih =>
    intro s a h
    exact ih (linkFace s f) a ((linkFace_selfState s f a).2.2.2 h)

/-- After the first pass from the initial state, a vertex touched by a
clamped face has exactly one counted self-link; an untouched vertex has
none (given non-degenerate non-clamped faces). -/
theorem linkVerticesPass_selfState (faces : List FaceL)
    (hdeg : ∀ f ∈ faces, f.clamped = false → adjacentCornersDistinct f) :
    ∀ (s : LinkState) (a : ℕ), selfFree s a →
      (touchesClamped faces a → selfLinked (linkVerticesPass faces s) a) ∧
      (¬ touchesClamped faces a → selfFree (linkVerticesPass faces s) a) := by
  induction faces with
  | nil =>
    intro s a h
    exact ⟨fun ht => absurd ht (by simp [touchesClamped]), fun _ => h⟩
  | cons f fs ih =>
    intro s a h
    have hdegs : ∀ g ∈ fs, g.clamped = false → adjacentCornersDistinct g :=
      fun g hg => hdeg g (List.mem_cons_of_mem _ hg)
    have step := linkFace_selfState s f a
    by_cases hf : f.clamped = true ∧ touches f a
    · have h1 : selfLinked (linkFace s f) a := step.2.1 h hf.1 hf.2
      refine ⟨fun _ => ?_, fun hnt => ?_⟩
      · exact linkVerticesPass_selfLinked fs (linkFace s f) a h1
      · exact absurd ⟨f, List.mem_cons_self f fs, hf⟩ hnt
    · have h1 : selfFree (linkFace s f) a := by
        rcases hcl : f.clamped
        · exact step.1 h hcl (hdeg f (List.mem_cons_self f fs) hcl)
        · exact step.2.2.1 h hcl fun ht => hf ⟨hcl, ht⟩
      have ihr := ih hdegs (linkFace s f) a h1
      constructor
      · rintro ⟨g, hg, hgc, hgt⟩
        rcases List.mem_cons.mp hg with rfl | hg2
        · exact absurd ⟨hgc, hgt⟩ hf
        · exact ihr.1 ⟨g, hg2, hgc, hgt⟩
      · intro hnt
        exact ihr.2 fun ⟨g, hg, hgc, hgt⟩ => hnt ⟨g, List.mem_cons_of_mem _ hg, hgc, hgt⟩

/-- A duplicate-free list whose members all equal `a`, containing `a`, is
exactly `[a]`. -/
theorem eq_singleton_of_all_eq {l : List ℕ} {a : ℕ} (hn : l.Nodup)
    (hm : a ∈ l) (hall : ∀ b ∈ l, b = a) : l = [a] := by
  cases l with
  | nil => cases hm
  | cons b t =>
    have hb : b = a := hall b (List.mem_cons_self b t)
    subst hb
    have ht : t = [] := by
      cases t with
      | nil => rfl
      | cons c t2 =>
        have hc : c = b := hall c (List.mem_cons_of_mem _ (List.mem_cons_self c t2))
        have := (List.nodup_cons.mp hn).1
        exact absurd (by rw [← hc]; exact List.mem_cons_self c t2) this
    rw [ht]


/-- Invariant of the `_fixClampedLinks` marking pass relative to the state
`orig` it started from: counts never change, unmarked vertices keep their
links, marked vertices have their links cleared. -/
def markInv (orig s : LinkState) : Prop :=
  ∀ a, s.nrOfClampedLinks a = orig.nrOfClampedLinks a ∧
    (s.fullyClamped a = false → s.links a = orig.links a) ∧
    (s.fullyClamped a = true → s.links a = [])

theorem markInv_refl {orig : LinkState}
    (h : ∀ a, orig.fullyClamped a = true → orig.links a = []) : markInv orig orig :=
  fun a => ⟨rfl, fun _ => rfl, h a⟩

theorem markVertex_markInv {orig s : LinkState} (h : markInv orig s) (x : ℕ) :
    markInv orig (markVertex s x) := by
  intro a
  obtain ⟨hnr, hf, ht⟩ := h a
  unfold markVertex
  rcases eq_or_ne a x with rfl | hax
  · refine ⟨hnr, ?_, ?_⟩
    · intro hfc
      dsimp only at hfc ⊢
      rw [Function.update_same] at hfc
      split
      · rename_i hcond
        rw [hcond] at hfc
        cases hfc
      · exact hf (Bool.or_eq_false_iff.mp hfc).1
    · intro hfc
      dsimp only at hfc ⊢
      rw [Function.update_same] at hfc
      rw [if_pos hfc, Function.update_same]
  · refine ⟨hnr, ?_, ?_⟩
    · intro hfc
      dsimp only at hfc ⊢
      rw [Function.update_noteq hax] at hfc
      split
      · rw [Function.update_noteq hax]
        exact hf hfc
      · exact hf hfc
    · intro hfc
      dsimp only at hfc ⊢
      rw [Function.update_noteq hax] at hfc
      split
      · rw [Function.update_noteq hax]
        exact ht hfc
      · exact ht hfc

theorem markVertex_mono {s : LinkState} {a : ℕ} (h : s.fullyClamped a = true)
    (x : ℕ) : (markVertex s x).fullyClamped a = true := by
  unfold markVertex
  dsimp only
  rcases eq_or_ne a x with rfl | hax
  · rw [Function.update_same, h, Bool.true_or]
  · rw [Function.update_noteq hax]
    exact h

theorem markVertex_hit {orig s : LinkState} {a : ℕ} (h : markInv orig s)
    (hcond : orig.nrOfClampedLinks a = (orig.links a).length) :
    (markVertex s a).fullyClamped a = true := by
  unfold markVertex
  dsimp only
  rw [Function.update_same]
  rcases hfc : s.fullyClamped a
  · obtain ⟨hnr, hf, _⟩ := h a
    rw [Bool.false_or, decide_eq_true_eq, hnr, hf hfc]
    exact hcond
  · rw [Bool.true_or]

theorem markFace_markInv {orig s : LinkState} (h : markInv orig s) (f : FaceL) :
    markInv orig (markFace s f) := by
  unfold markFace
  split
  · exact markVertex_markInv (markVertex_markInv (markVertex_markInv
      (markVertex_markInv h _) _) _) _
  · exact h

theorem markFace_mono {s : LinkState} {a : ℕ} (h : s.fullyClamped a = true)
    (f : FaceL) : (markFace s f).fullyClamped a = true := by
  unfold markFace
  split
  · exact markVertex_mono (markVertex_mono (markVertex_mono
      (markVertex_mono h _) _) _) _
  · exact h

theorem markFace_hit {orig s : LinkState} {a : ℕ} {f : FaceL}
    (h : markInv orig s) (hcl : f.clamped = true) (ht : touches f a)
    (hcond : orig.nrOfClampedLinks a = (orig.links a).length) :
    (markFace s f).fullyClamped a = true := by
  unfold markFace
  rw [hcl]
  simp only [if_true]
  rcases ht with h0 | h1 | h2 | h3
  · subst h0
    exact markVertex_mono (markVertex_mono (markVertex_mono
      (markVertex_hit h hcond) _) _) _
  · subst h1
    exact markVertex_mono (markVertex_mono
      (markVertex_hit (markVertex_markInv h _) hcond) _) _
  · subst h2
    exact markVertex_mono
      (markVertex_hit (markVertex_markInv (markVertex_markInv h _) _) hcond) _
  · subst h3
    exact markVertex_hit (markVertex_markInv (markVertex_markInv
      (markVertex_markInv h _) _) _) hcond

theorem markFold_markInv (faces : List FaceL) :
    ∀ {orig s : LinkState}, markInv orig s →
      markInv orig (faces.foldl markFace s) := by
  induction faces with
  | nil => exact fun h => h
  | cons f fs ih => exact fun h => ih (markFace_markInv h f)

theorem markFold_mono (faces : List FaceL) :
    ∀ {s : LinkState} {a : ℕ}, s.fullyClamped a = true →
      (faces.foldl markFace s).fullyClamped a = true := by
  induction faces with
  | nil => exact fun h => h
  | cons f fs ih => exact fun h => ih (markFace_mono h f)

/-- The marking pass marks every vertex touched by a clamped face whose
original clamped-link count equals its original link count. -/
theorem markFold_hit (faces : List FaceL) :
    ∀ {orig s : LinkState} {a : ℕ}, markInv orig s →
      (∃ f ∈ faces, f.clamped = true ∧ touches f a) →
      orig.nrOfClampedLinks a = (orig.links a).length →
      (faces.foldl markFace s).fullyClamped a = true := by
  induction faces with
  | nil =>
    rintro orig s a _ ⟨f, hf, _⟩ _
    cases hf
  | cons f fs ih =>
    rintro orig s a h ⟨g, hg, hgc, hgt⟩ hcond
    rcases List.mem_cons.mp hg with rfl | hg2
    · exact markFold_mono fs (markFace_hit h hgc hgt hcond)
    · exact ih (markFace_markInv h f) ⟨g, hg2, hgc, hgt⟩ hcond

theorem fixAddFace_fc (s : LinkState) (f : FaceL) (a : ℕ) :
    (fixAddFace s f).fullyClamped a = s.fullyClamped a := by
  unfold fixAddFace
  split
  · simp only [addIfFC_fc]
  · rfl

/-- Membership effect of one face of the second `_fixClampedLinks` loop. -/
theorem fixAddFace_links_mem (s : LinkState) (f : FaceL) (a b : ℕ) :
    b ∈ (fixAddFace s f).links a ↔ b ∈ s.links a ∨
      (f.clamped = true ∧ s.fullyClamped a = true ∧ cyclAdj f a b) := by
  unfold fixAddFace
  rcases hcl : f.clamped
  · simp
  · simp only [if_true, addIfFC_links_mem, addIfFC_fc, true_and, or_assoc]
    constructor
    · rintro (h | ⟨hfc, rfl, rfl⟩ | ⟨hfc, rfl, rfl⟩ | ⟨hfc, rfl, rfl⟩ |
        ⟨hfc, rfl, rfl⟩ | ⟨hfc, rfl, rfl⟩ | ⟨hfc, rfl, rfl⟩ | ⟨hfc, rfl, rfl⟩ |
        ⟨hfc, rfl, rfl⟩)
      · exact Or.inl h
      · exact Or.inr ⟨hfc, Or.inl ⟨rfl, rfl⟩⟩
      · exact Or.inr ⟨hfc, Or.inr (Or.inl ⟨rfl, rfl⟩)⟩
      · exact Or.inr ⟨hfc, Or.inr (Or.inr (Or.inl ⟨rfl, rfl⟩))⟩
      · exact Or.inr ⟨hfc, Or.inr (Or.inr (Or.inr (Or.inl ⟨rfl, rfl⟩)))⟩
      · exact Or.inr ⟨hfc, Or.inr (Or.inr (Or.inr (Or.inr (Or.inl ⟨rfl, rfl⟩))))⟩
      · exact Or.inr ⟨hfc,
          Or.inr (Or.inr (Or.inr (Or.inr (Or.inr (Or.inl ⟨rfl, rfl⟩)))))⟩
      · exact Or.inr ⟨hfc, Or.inr (Or.inr (Or.inr (Or.inr (Or.inr (Or.inr
          (Or.inl ⟨rfl, rfl⟩))))))⟩
      · exact Or.inr ⟨hfc, Or.inr (Or.inr (Or.inr (Or.inr (Or.inr (Or.inr
          (Or.inr ⟨rfl, rfl⟩))))))⟩
    · rintro (h | ⟨hfc, ⟨ha, hb⟩ | ⟨ha, hb⟩ | ⟨ha, hb⟩ | ⟨ha, hb⟩ | ⟨ha, hb⟩ |
        ⟨ha, hb⟩ | ⟨ha, hb⟩ | ⟨ha, hb⟩⟩)
      · exact Or.inl h
      · exact Or.inr (Or.inl ⟨ha ▸ hfc, ha, hb⟩)
      · exact Or.inr (Or.inr (Or.inl ⟨ha ▸ hfc, ha, hb⟩))
      · exact Or.inr (Or.inr (Or.inr (Or.inl ⟨ha ▸ hfc, ha, hb⟩)))
      · exact Or.inr (Or.inr (Or.inr (Or.inr (Or.inl ⟨ha ▸ hfc, ha, hb⟩))))
      · exact Or.inr (Or.inr (Or.inr (Or.inr (Or.inr
          (Or.inl ⟨ha ▸ hfc, ha, hb⟩)))))
      · exact Or.inr (Or.inr (Or.inr (Or.inr (Or.inr (Or.inr
          (Or.inl ⟨ha ▸ hfc, ha, hb⟩))))))
      · exact Or.inr (Or.inr (Or.inr (Or.inr (Or.inr (Or.inr (Or.inr
          (Or.inl ⟨ha ▸ hfc, ha, hb⟩)))))))
      · exact Or.inr (Or.inr (Or.inr (Or.inr (Or.inr (Or.inr (Or.inr
          (Or.inr ⟨ha ▸ hfc, ha, hb⟩)))))))

theorem fixAddFold_fc (faces : List FaceL) :
    ∀ (s : LinkState) (a : ℕ),
      (faces.foldl fixAddFace s).fullyClamped a = s.fullyClamped a := by
  induction faces with
  | nil => exact fun s a => rfl
  | cons f fs ih =>
    intro s a
    rw [show (f :: fs).foldl fixAddFace s = fs.foldl fixAddFace (fixAddFace s f)
      from rfl, ih, fixAddFace_fc]

/-- Links after the second `_fixClampedLinks` loop: the previous links plus,
for fully clamped vertices, the cyclic-neighbour links of the clamped
faces. -/
theorem fixAddFold_links_mem (faces : List FaceL) :
    ∀ (s : LinkState) (a b : ℕ),
      b ∈ (faces.foldl fixAddFace s).links a ↔ b ∈ s.links a ∨
        (s.fullyClamped a = true ∧
          ∃ f ∈ faces, f.clamped = true ∧ cyclAdj f a b) := by
  induction faces with
  | nil => intro s a b; simp
  | cons f fs ih =>
    intro s a b
    rw [show (f :: fs).foldl fixAddFace s = fs.foldl fixAddFace (fixAddFace s f)
      from rfl, ih, fixAddFace_links_mem, fixAddFace_fc]
    simp only [List.mem_cons]
    constructor
    · rintro ((h | ⟨hfc2, hfcc, hadj⟩) | ⟨hfc, g, hg, hgc, hadj⟩)
      · exact Or.inl h
      · exact Or.inr ⟨hfcc, f, Or.inl rfl, hfc2, hadj⟩
      · exact Or.inr ⟨hfc, g, Or.inr hg, hgc, hadj⟩
    · rintro (h | ⟨hfc, g, hg | hg, hgc, hadj⟩)
      · exact Or.inl (Or.inl h)
      · subst hg
        exact Or.inl (Or.inr ⟨hgc, hfc, hadj⟩)
      · exact Or.inr ⟨hfc, g, hg, hgc, hadj⟩


theorem linkFace_fc (s : LinkState) (f : FaceL) (c : ℕ) :
    (linkFace s f).fullyClamped c = s.fullyClamped c := by
  unfold linkFace linkPair
  split
  · simp only [addSelfLink_fc]
  · simp only [addLink_fc]

theorem linkVerticesPass_fc (faces : List FaceL) :
    ∀ (s : LinkState) (c : ℕ),
      (linkVerticesPass faces s).fullyClamped c = s.fullyClamped c := by
  induction faces with
  | nil => exact fun s c => rfl
  | cons f fs ih =>
    intro s c
    rw [show linkVerticesPass (f :: fs) s = linkVerticesPass fs (linkFace s f)
      from rfl, ih, linkFace_fc]

/-- **C7.**  After the first linking pass, a vertex is linked to exactly the
bidirectional cyclic neighbours it has in non-clamped faces (never a
diagonal), plus a self-link exactly when some clamped face touches it
(`nrOfClampedLinks` counting it in the averaging denominator); and any
vertex whose first-pass links are entirely self-links and that is touched
by a clamped face ends up, after `_fixClampedLinks`, with exactly the
ordinary cyclic-neighbour links of its (clamped) faces.  Faces are assumed
non-degenerate: adjacent quad corners are distinct vertices. -/
theorem C7_vertex_linking (faces : List FaceL)
    (hdeg : ∀ f ∈ faces, f.clamped = false → adjacentCornersDistinct f) :
    (∀ a b, b ∈ (linkVerticesPass faces initialLinkState).links a ↔
      (∃ f ∈ faces, f.clamped = false ∧ cyclAdj f a b) ∨
      (b = a ∧ ∃ f ∈ faces, f.clamped = true ∧ touches f a)) ∧
    (∀ a, (∀ b ∈ (linkVerticesPass faces initialLinkState).links a, b = a) →
      touchesClamped faces a →
      ∀ b, b ∈ (linkVertices faces).links a ↔
        ∃ f ∈ faces, f.clamped = true ∧ cyclAdj f a b) := by
  constructor
  · intro a b
    rw [linkVerticesPass_links_mem]
    simp [initialLinkState]
  · intro a hall htc b
    have hsf : selfFree initialLinkState a := ⟨rfl, by simp [initialLinkState]⟩
    have hsl : selfLinked (linkVerticesPass faces initialLinkState) a :=
      (linkVerticesPass_selfState faces hdeg initialLinkState a hsf).1 htc
    have hnodup : ((linkVerticesPass faces initialLinkState).links a).Nodup :=
      linkVerticesPass_nodup faces initialLinkState
        (fun c => by simp [initialLinkState]) a
    have hsingle : (linkVerticesPass faces initialLinkState).links a = [a] :=
      eq_singleton_of_all_eq hnodup hsl.2 hall
    have hcond : (linkVerticesPass faces initialLinkState).nrOfClampedLinks a =
        ((linkVerticesPass faces initialLinkState).links a).length := by
      rw [hsingle, hsl.1]
      rfl
    have hfc0 : ∀ c, (linkVerticesPass faces initialLinkState).fullyClamped c = true →
        (linkVerticesPass faces initialLinkState).links c = [] := by
      intro c hc
      rw [linkVerticesPass_fc] at hc
      exact absurd hc (by simp [initialLinkState])
    have hminv : markInv (linkVerticesPass faces initialLinkState)
        (faces.foldl markFace (linkVerticesPass faces initialLinkState)) :=
      markFold_markInv faces (markInv_refl hfc0)
    have hfcmark : (faces.foldl markFace
        (linkVerticesPass faces initialLinkState)).fullyClamped a = true :=
      markFold_hit faces (markInv_refl hfc0) htc hcond
    have hempty : (faces.foldl markFace
        (linkVerticesPass faces initialLinkState)).links a = [] :=
      (hminv a).2.2 hfcmark
    rw [show linkVertices faces = faces.foldl fixAddFace
      (faces.foldl markFace (linkVerticesPass faces initialLinkState)) from rfl]
    rw [fixAddFold_links_mem]
    rw [hempty, hfcmark]
    simp

/-- The witness face: a clamped quad over vertices 0,1,2,3. -/
def c7Face : FaceL := ⟨fun i => i.val, true⟩

/-- Witness for C7: with a single clamped quad, vertex 0 first gets only a
self-link; `_fixClampedLinks` then rebuilds its links as the neighbour links
to vertices 1 and 3 (and not the diagonal 2). -/
theorem C7_witness :
    1 ∈ (linkVertices [c7Face]).links 0 ∧
    3 ∈ (linkVertices [c7Face]).links 0 ∧
    ¬ 2 ∈ (linkVertices [c7Face]).links 0 := by
  have h := (C7_vertex_linking [c7Face]
    (fun f hf hc => by
      rcases List.mem_singleton.mp hf with rfl
      cases hc)).2 0 (by decide)
    ⟨c7Face, List.mem_singleton.mpr rfl, rfl, Or.inl rfl⟩
  refine ⟨(h 1).mpr ⟨c7Face, List.mem_singleton.mpr rfl, rfl, ?_⟩,
    (h 3).mpr ⟨c7Face, List.mem_singleton.mpr rfl, rfl, ?_⟩, fun hmem => ?_⟩
  · exact Or.inl ⟨rfl, rfl⟩
  · exact Or.inr (Or.inr (Or.inr (Or.inr (Or.inr (Or.inr (Or.inr
      ⟨rfl, rfl⟩))))))
  · obtain ⟨f, hf, _, hadj⟩ := (h 2).mp hmem
    rcases List.mem_singleton.mp hf with rfl
    revert hadj
    decide

end SmoothVoxels
